import Mathlib

/-! Weighted raster statistics (`src/raster_stats.h`).

A shallow embedding of the class template `exactextract::RasterStats<T>`.

* The value type `T` is an integer type: a value is an `Int`, and the two constants
  `std::numeric_limits<T>::max()` and `std::numeric_limits<T>::lowest()` are carried by
  `NumericLimits`. A value of type `T` always lies between them; theorems that need that
  fact assume it of the values they are given.
* `float` and `double` quantities are exact rationals (`ℚ`): the conversions between
  `float`, `double` and `T` are the identity, and a division by zero (whose floating result
  is not a number or infinite) has no rational result.
* `std::unordered_map<T, float>` is the list of its entries in iteration order. The keys of
  such a list are pairwise distinct. The iteration order of an unordered map is
  unspecified, so every statement about a scan of the table is made for every enumeration.
-/

namespace exactextract

/-! ## Data model -/

/-- The constants `std::numeric_limits<T>::max()` and `std::numeric_limits<T>::lowest()`
of the value type `T`. -/
structure NumericLimits where
  max : Int
  lowest : Int
deriving DecidableEq

/-- A value `v` is representable in the value type. -/
def NumericLimits.representable (L : NumericLimits) (v : Int) : Prop :=
  L.lowest ≤ v ∧ v ≤ L.max

instance (L : NumericLimits) (v : Int) : Decidable (L.representable v) := by
  unfold NumericLimits.representable; infer_instance

/-- The private fields of `RasterStats<T>` (lines 152-158). -/
structure RasterStats where
  m_min : Int
  m_max : Int
  m_weights : ℚ
  m_weighted_vals : ℚ
  m_freq : List (Int × ℚ)
deriving DecidableEq

/-- Modelled from the spec: the coverage-aware raster view `RasterView<T>` of
`raster_cell_intersection.h`, which is not part of the sources. It has `rows()` by `cols()`
cells, and `get(i, j, val)` either reports a defined value or reports that the cell is
undefined (nodata, or outside the raster). -/
structure RasterView (α : Type) where
  rows : Nat
  cols : Nat
  get : Nat → Nat → Option α

/-- The keys of a frequency table, in iteration order. -/
def keys (freq : List (Int × ℚ)) : List Int := freq.map Prod.fst

/-- The representation invariant of `std::unordered_map`: no key occurs twice. -/
def distinct_keys (freq : List (Int × ℚ)) : Prop := (keys freq).Nodup

instance (freq : List (Int × ℚ)) : Decidable (distinct_keys freq) := by
  unfold distinct_keys; infer_instance

/-- The weight stored under key `k`: `m_freq.find(k)`, if there is one. -/
def find (k : Int) : List (Int × ℚ) → Option ℚ
  | [] => none
  | e :: rest => if e.1 = k then some e.2 else find k rest

/-! ## Construction and accumulation -/

/-- The constructor `RasterStats()` (lines 35-39). The map starts empty. -/
def RasterStats.new (L : NumericLimits) : RasterStats :=
  { m_min := L.max
    m_max := L.lowest
    m_weights := 0
    m_weighted_vals := 0
    m_freq := [] }

/-- The statement `m_freq[val] += weight` (line 172): `operator[]` finds the entry of `val`
or inserts one with the value-initialised weight `0`, and `+=` adds to it. An existing entry
keeps its place in the iteration; the place of a new entry is unspecified, here the end. -/
def freq_add (val : Int) (weight : ℚ) : List (Int × ℚ) → List (Int × ℚ)
  | [] => [(val, 0 + weight)]
  | e :: rest =>
    if e.1 = val then (e.1, e.2 + weight) :: rest else e :: freq_add val weight rest

/-- The private `process(const T& val, float weight)` (lines 160-173). -/
def RasterStats.process (s : RasterStats) (val : Int) (weight : ℚ) : RasterStats :=
  { m_weights := s.m_weights + weight
    m_weighted_vals := s.m_weighted_vals + weight * (val : ℚ)
    m_min := if val < s.m_min then val else s.m_min
    m_max := if val > s.m_max then val else s.m_max
    m_freq := freq_add val weight s.m_freq }

/-- The body of the inner loop of the single-raster `process` (lines 46-50), at a cell whose
coverage is `pct_cov` and whose value lookup `rv.get(i, j, val)` gives `cell`. -/
def RasterStats.process_cell (s : RasterStats) (pct_cov : ℚ) (cell : Option Int) :
    RasterStats :=
  if pct_cov > 0 then
    match cell with
    | some val => s.process val pct_cov
    | none => s
  else s

/-- The single-raster `process(intersection_percentages, rast)` (lines 41-53). The view `rv`
is the value raster seen on the grid of `intersection_percentages`. -/
def RasterStats.process_raster (s : RasterStats) (intersection_percentages : Nat → Nat → ℚ)
    (rv : RasterView Int) : RasterStats :=
  (List.range rv.rows).foldl
    (fun s i =>
      (List.range rv.cols).foldl
        (fun s j => s.process_cell (intersection_percentages i j) (rv.get i j)) s)
    s

/-- The body of the inner loop of the dual-raster `process` (lines 65-71): the weight lookup
`wv.get(i, j, weight)` gives `wcell` and the value lookup `rv.get(i, j, val)` gives `cell`. -/
def RasterStats.process_weighted_cell (s : RasterStats) (pct_cov : ℚ) (wcell : Option Int)
    (cell : Option Int) : RasterStats :=
  if pct_cov > 0 then
    match wcell with
    | some weight =>
      match cell with
      | some val => s.process val (pct_cov * (weight : ℚ))
      | none => s
    | none => s
  else s

/-- The dual-raster `process(intersection_percentages, rast, weights)` (lines 55-74). The
views `iv`, `rv` and `wv` are the three rasters seen on their common grid, which the grid
collaborator computes; the loop bounds are those of `rv`. -/
def RasterStats.process_weighted (s : RasterStats) (iv : Nat → Nat → ℚ)
    (rv : RasterView Int) (wv : RasterView Int) : RasterStats :=
  (List.range rv.rows).foldl
    (fun s i =>
      (List.range rv.cols).foldl
        (fun s j => s.process_weighted_cell (iv i j) (wv.get i j) (rv.get i j)) s)
    s

/-! ## Accessors -/

/-- The comparator of `mode()` and `minority()` (lines 93-95 and 138-140). -/
def freq_less (a b : Int × ℚ) : Bool :=
  decide (a.2 < b.2) || (decide (a.2 = b.2) && decide (a.1 < b.1))

/-- The scan of `std::max_element` after its first element: `largest` is replaced by a
later element `x` when `comp(largest, x)`. -/
def max_element_from (comp : α → α → Bool) (largest : α) : List α → α
  | [] => largest
  | x :: rest =>
    if comp largest x then max_element_from comp x rest
    else max_element_from comp largest rest

/-- The algorithm `std::max_element(first, last, comp)`: on an empty range it returns `last`,
which is `none` here. -/
def max_element (comp : α → α → Bool) : List α → Option α
  | [] => none
  | x :: rest => some (max_element_from comp x rest)

/-- The scan of `std::min_element` after its first element: `smallest` is replaced by a
later element `x` when `comp(x, smallest)`. -/
def min_element_from (comp : α → α → Bool) (smallest : α) : List α → α
  | [] => smallest
  | x :: rest =>
    if comp x smallest then min_element_from comp x rest
    else min_element_from comp smallest rest

/-- The algorithm `std::min_element(first, last, comp)`: on an empty range it returns `last`,
which is `none` here. -/
def min_element (comp : α → α → Bool) : List α → Option α
  | [] => none
  | x :: rest => some (min_element_from comp x rest)

/-- The accessor `sum()` (lines 117-119). -/
def RasterStats.sum (s : RasterStats) : ℚ := s.m_weighted_vals

/-- The accessor `count()` (lines 125-127). -/
def RasterStats.count (s : RasterStats) : ℚ := s.m_weights

/-- The accessor `mean()` (lines 80-82), `sum() / count()`. When `count()` is zero the
floating quotient is not a number or infinite, which is `none` here. -/
def RasterStats.mean (s : RasterStats) : Option ℚ :=
  if s.count = 0 then none else some (s.sum / s.count)

/-- The accessor `min()` (lines 102-104). -/
def RasterStats.min (s : RasterStats) : Int := s.m_min

/-- The accessor `max()` (lines 110-112). -/
def RasterStats.max (s : RasterStats) : Int := s.m_max

/-- The accessor `variety()` (lines 147-149). -/
def RasterStats.variety (s : RasterStats) : Nat := s.m_freq.length

/-- The accessor `mode()` (lines 90-96). The iterator that `std::max_element` returns is
dereferenced without a test: when it is the end iterator the access `->first` has no defined
result, which is `none` here. -/
def RasterStats.mode (s : RasterStats) : Option Int :=
  (max_element freq_less s.m_freq).map Prod.fst

/-- The accessor `minority()` (lines 135-141). The iterator that `std::min_element` returns
is dereferenced without a test: when it is the end iterator the access `->first` has
no defined result, which is `none` here. -/
def RasterStats.minority (s : RasterStats) : Option Int :=
  (min_element freq_less s.m_freq).map Prod.fst

/-! ## Definitions that follow the specification -/

/-- A contribution `(value, weight)`, applied by the internal step. -/
abbrev Contribution := Int × ℚ

/-- The contributions of a list applied in order, each by one call of the internal step. -/
def contribute_all (s : RasterStats) (cs : List Contribution) : RasterStats :=
  cs.foldl (fun s c => s.process c.1 c.2) s

/-- The cells `(i, j)` of a grid of `rows` by `cols` cells in row-major order. -/
def row_major (rows cols : Nat) : List (Nat × Nat) :=
  (List.range rows).flatMap (fun i => (List.range cols).map (fun j => (i, j)))

/-- Single-raster mode as the specification words it: a cell contributes `(v, pct)` when
`pct > 0` and the value raster has a defined value `v` there, and nothing otherwise. -/
def single_contribution (pct : ℚ) (cell : Option Int) : Option Contribution :=
  match cell with
  | some v => if pct > 0 then some (v, pct) else none
  | none => none

/-- Dual-raster mode as the specification words it: a cell contributes `(v, pct * w)` when
`pct > 0` and the weight raster has a defined weight `w` and the value raster has a defined
value `v` there, and nothing otherwise. -/
def weighted_contribution (pct : ℚ) (wcell : Option Int) (cell : Option Int) :
    Option Contribution :=
  match wcell, cell with
  | some w, some v => if pct > 0 then some (v, pct * (w : ℚ)) else none
  | _, _ => none

/-- The accumulated weight of value `k` in a list of contributions. -/
def weight_of (k : Int) (cs : List Contribution) : ℚ :=
  ((cs.filter (fun c => c.1 = k)).map Prod.snd).sum

/-- The contributions of a single-raster call as the specification words them: one for each
cell, in row-major order, that has `pct > 0` and a defined value. -/
def single_contributions (pcts : Nat → Nat → ℚ) (rv : RasterView Int) : List Contribution :=
  (row_major rv.rows rv.cols).filterMap
    (fun ij => single_contribution (pcts ij.1 ij.2) (rv.get ij.1 ij.2))

/-- The contributions of a dual-raster call as the specification words them: one for each
cell, in row-major order, that has `pct > 0`, a defined weight and a defined value. -/
def weighted_contributions (pcts : Nat → Nat → ℚ) (rv wv : RasterView Int) :
    List Contribution :=
  (row_major rv.rows rv.cols).filterMap
    (fun ij => weighted_contribution (pcts ij.1 ij.2) (wv.get ij.1 ij.2) (rv.get ij.1 ij.2))

/-- An accumulator whose table holds the tied weights `{3: 2, 7: 2}`. -/
def tied_stats : RasterStats :=
  { m_min := 3, m_max := 7, m_weights := 4, m_weighted_vals := 20,
    m_freq := [(3, 2), (7, 2)] }

/-- An accumulator whose table holds the weights `{10: 3/2, 20: 1/4}`, enumerated with the
value `20` first. -/
def untied_stats : RasterStats :=
  { m_min := 10, m_max := 20, m_weights := 7 / 4, m_weighted_vals := 20,
    m_freq := [(20, 1 / 4), (10, 3 / 2)] }

/-- The limits of an 8-bit unsigned value type. -/
def uint8_limits : NumericLimits := { max := 255, lowest := 0 }

/-- The limits of a 32-bit signed value type. -/
def int32_limits : NumericLimits := { max := 2147483647, lowest := -2147483648 }

/-- A view of a grid given by its rows; a cell outside the rows is undefined. -/
def view_of_rows (cells : List (List (Option Int))) : RasterView Int :=
  { rows := cells.length
    cols := (cells.headD []).length
    get := fun i j => ((cells.getD i []).getD j none) }

/-- A coverage grid given by its rows; a cell outside the rows has coverage zero. -/
def coverage_of_rows (cells : List (List ℚ)) : Nat → Nat → ℚ :=
  fun i j => (cells.getD i []).getD j 0

/-- The values of a list of contributions. -/
def values (cs : List Contribution) : List Int := cs.map Prod.fst

/-- The weight that a table holds for `k`, zero when `k` is not a key. -/
def weight_in (freq : List (Int × ℚ)) (k : Int) : ℚ := (find k freq).getD 0

/-- The values of the contributions whose weight is positive. -/
def positive_values (cs : List Contribution) : List Int :=
  values (cs.filter (fun c => decide (0 < c.2)))

/-! ## Sequences of calls -/

/-- One call of a public `process` entry point, with the views it iterates over. -/
inductive Call where
  | single (intersection_percentages : Nat → Nat → ℚ) (rv : RasterView Int)
  | weighted (iv : Nat → Nat → ℚ) (rv : RasterView Int) (wv : RasterView Int)

/-- The effect of one call of a public `process` entry point on the accumulator. -/
def RasterStats.call (s : RasterStats) : Call → RasterStats
  | Call.single pcts rv => s.process_raster pcts rv
  | Call.weighted iv rv wv => s.process_weighted iv rv wv

/-- The state after a sequence of calls of the public `process` entry points. -/
def run (s : RasterStats) (calls : List Call) : RasterStats :=
  calls.foldl RasterStats.call s

/-- The calls `process(val, pct_cov)` that the body of the inner loop of the single-raster
`process` makes at one cell (lines 46-50): one or none. -/
def process_cell_calls (pct_cov : ℚ) (cell : Option Int) : List Contribution :=
  if pct_cov > 0 then
    match cell with
    | some val => [(val, pct_cov)]
    | none => []
  else []

/-- The calls `process(val, pct_cov * weight)` that the body of the inner loop of the
dual-raster `process` makes at one cell (lines 65-71): one or none. -/
def process_weighted_cell_calls (pct_cov : ℚ) (wcell : Option Int) (cell : Option Int) :
    List Contribution :=
  if pct_cov > 0 then
    match wcell with
    | some weight =>
      match cell with
      | some val => [(val, pct_cov * (weight : ℚ))]
      | none => []
    | none => []
  else []

/-- The calls of the internal step that the single-raster `process` makes, in order. -/
def process_raster_calls (intersection_percentages : Nat → Nat → ℚ) (rv : RasterView Int) :
    List Contribution :=
  (List.range rv.rows).flatMap (fun i =>
    (List.range rv.cols).flatMap (fun j =>
      process_cell_calls (intersection_percentages i j) (rv.get i j)))

/-- The calls of the internal step that the dual-raster `process` makes, in order. -/
def process_weighted_calls (iv : Nat → Nat → ℚ) (rv : RasterView Int)
    (wv : RasterView Int) : List Contribution :=
  (List.range rv.rows).flatMap (fun i =>
    (List.range rv.cols).flatMap (fun j =>
      process_weighted_cell_calls (iv i j) (wv.get i j) (rv.get i j)))

/-- The calls of the internal step that one call of a public entry point makes. -/
def Call.calls : Call → List Contribution
  | Call.single pcts rv => process_raster_calls pcts rv
  | Call.weighted iv rv wv => process_weighted_calls iv rv wv

/-- The call is a single-raster call. -/
def Call.is_single : Call → Bool
  | Call.single _ _ => true
  | Call.weighted _ _ _ => false

/-- Every defined value of the value raster of the call is a value of the value type. -/
def Call.values_representable (L : NumericLimits) : Call → Prop
  | Call.single _ rv => ∀ i j v, rv.get i j = some v → L.representable v
  | Call.weighted _ rv _ => ∀ i j v, rv.get i j = some v → L.representable v

/-- No defined weight of the weight raster of the call is negative; a single-raster call
has no weight raster. -/
def Call.weights_nonneg : Call → Prop
  | Call.single _ _ => True
  | Call.weighted _ _ wv => ∀ i j w, wv.get i j = some w → 0 ≤ w

/-- Every defined weight of the weight raster of the call is positive; a single-raster call
has no weight raster. -/
def Call.weights_positive : Call → Prop
  | Call.single _ _ => True
  | Call.weighted _ _ wv => ∀ i j w, wv.get i j = some w → 0 < w

/-- The sum of all the weights stored in a frequency table. -/
def weights_sum (freq : List (Int × ℚ)) : ℚ := (freq.map Prod.snd).sum

/-- Two frequency tables added key by key, as the specification words the merge: each entry
of `g` is added to the weight that `f` holds under its key. -/
def merge_freq (f g : List (Int × ℚ)) : List (Int × ℚ) :=
  g.foldl (fun acc e => freq_add e.1 e.2 acc) f

/-- The merge of two accumulators as the specification words it: the total weights and the
weighted sums are added, the frequency tables are added key by key, and the smaller minimum
and the larger maximum are kept. The sources have no such operation. -/
def RasterStats.merge (a b : RasterStats) : RasterStats :=
  { m_weights := a.m_weights + b.m_weights
    m_weighted_vals := a.m_weighted_vals + b.m_weighted_vals
    m_min := Min.min a.m_min b.m_min
    m_max := Max.max a.m_max b.m_max
    m_freq := merge_freq a.m_freq b.m_freq }

/-- Two accumulators hold the same state: the same scalars and the same frequency table,
which is the same weight, or none, under every key. -/
def RasterStats.same (a b : RasterStats) : Prop :=
  a.m_weights = b.m_weights ∧ a.m_weighted_vals = b.m_weighted_vals ∧
  a.m_min = b.m_min ∧ a.m_max = b.m_max ∧ ∀ k, find k a.m_freq = find k b.m_freq

/-- The coverage grid of the end-to-end scenario, as one row of four cells. -/
def scenario_coverage : Nat → Nat → ℚ := coverage_of_rows [[1, 1 / 2, 0, 1 / 4]]

/-- The value raster of the end-to-end scenario, as one row of four cells. -/
def scenario_values : RasterView Int := view_of_rows [[some 10, some 10, some 20, some 20]]

/-! ## The comparator is a strict linear order -/

/-- The rank of an entry: its weight first, its value second, ordered lexicographically. -/
def rank (a : Int × ℚ) : Lex (ℚ × Int) := toLex (a.2, a.1)

theorem freq_less_iff (a b : Int × ℚ) : freq_less a b = true ↔ rank a < rank b := by
  simp [freq_less, rank, Prod.Lex.lt_iff]

theorem rank_injective {a b : Int × ℚ} (h : rank a = rank b) : a = b := by
  have h2 : (a.2, a.1) = (b.2, b.1) := by simpa [rank] using h
  have h3 := Prod.mk.inj h2
  exact Prod.ext h3.2 h3.1

theorem rank_lt_iff (a b : Int × ℚ) :
    rank a < rank b ↔ a.2 < b.2 ∨ (a.2 = b.2 ∧ a.1 < b.1) := by
  simp [rank, Prod.Lex.lt_iff]

/-! ## The scans of `std::max_element` and `std::min_element` -/

theorem max_element_from_mem (largest : Int × ℚ) (l : List (Int × ℚ)) :
    max_element_from freq_less largest l ∈ largest :: l := by
  induction l generalizing largest with
  | nil => simp [max_element_from]
  | cons x rest ih =>
    unfold max_element_from
    split
    · exact List.mem_cons_of_mem _ (ih x)
    · have h := ih largest
      rcases List.mem_cons.1 h with h | h
      · rw [h]; exact List.mem_cons_self _ _
      · exact List.mem_cons_of_mem _ (List.mem_cons_of_mem _ h)

theorem max_element_from_ge (largest : Int × ℚ) (l : List (Int × ℚ)) :
    ∀ e ∈ largest :: l, rank e ≤ rank (max_element_from freq_less largest l) := by
  induction l generalizing largest with
  | nil => intro e he; simp at he; simp [max_element_from, he]
  | cons x rest ih =>
    intro e he
    unfold max_element_from
    split
    · rename_i hc
      have hlt := (freq_less_iff largest x).1 hc
      rcases List.mem_cons.1 he with h | h
      · rw [h]
        exact le_trans (le_of_lt hlt) (ih x x (List.mem_cons_self _ _))
      · exact ih x e h
    · rename_i hc
      have hge : rank x ≤ rank largest := by
        rw [freq_less_iff] at hc
        exact not_lt.1 hc
      rcases List.mem_cons.1 he with h | h
      · rw [h]; exact ih largest largest (List.mem_cons_self _ _)
      · rcases List.mem_cons.1 h with h | h
        · rw [h]
          exact le_trans hge (ih largest largest (List.mem_cons_self _ _))
        · exact ih largest e (List.mem_cons_of_mem _ h)

theorem min_element_from_mem (smallest : Int × ℚ) (l : List (Int × ℚ)) :
    min_element_from freq_less smallest l ∈ smallest :: l := by
  induction l generalizing smallest with
  | nil => simp [min_element_from]
  | cons x rest ih =>
    unfold min_element_from
    split
    · exact List.mem_cons_of_mem _ (ih x)
    · have h := ih smallest
      rcases List.mem_cons.1 h with h | h
      · rw [h]; exact List.mem_cons_self _ _
      · exact List.mem_cons_of_mem _ (List.mem_cons_of_mem _ h)

theorem min_element_from_le (smallest : Int × ℚ) (l : List (Int × ℚ)) :
    ∀ e ∈ smallest :: l, rank (min_element_from freq_less smallest l) ≤ rank e := by
  induction l generalizing smallest with
  | nil => intro e he; simp at he; simp [min_element_from, he]
  | cons x rest ih =>
    intro e he
    unfold min_element_from
    split
    · rename_i hc
      have hlt := (freq_less_iff x smallest).1 hc
      rcases List.mem_cons.1 he with h | h
      · rw [h]
        exact le_trans (ih x x (List.mem_cons_self _ _)) (le_of_lt hlt)
      · exact ih x e h
    · rename_i hc
      have hge : rank smallest ≤ rank x := by
        rw [freq_less_iff] at hc
        exact not_lt.1 hc
      rcases List.mem_cons.1 he with h | h
      · rw [h]; exact ih smallest smallest (List.mem_cons_self _ _)
      · rcases List.mem_cons.1 h with h | h
        · rw [h]
          exact le_trans (ih smallest smallest (List.mem_cons_self _ _)) hge
        · exact ih smallest e (List.mem_cons_of_mem _ h)

/-- On a non-empty table `std::max_element` returns an entry of the table that no entry
outranks. -/
theorem max_element_spec (freq : List (Int × ℚ)) (hne : freq ≠ []) :
    ∃ m, max_element freq_less freq = some m ∧ m ∈ freq ∧ ∀ e ∈ freq, rank e ≤ rank m := by
  cases freq with
  | nil => exact absurd rfl hne
  | cons x rest =>
    exact ⟨_, rfl, max_element_from_mem x rest, max_element_from_ge x rest⟩

/-- On a non-empty table `std::min_element` returns an entry of the table that outranks no
entry. -/
theorem min_element_spec (freq : List (Int × ℚ)) (hne : freq ≠ []) :
    ∃ m, min_element freq_less freq = some m ∧ m ∈ freq ∧ ∀ e ∈ freq, rank m ≤ rank e := by
  cases freq with
  | nil => exact absurd rfl hne
  | cons x rest =>
    exact ⟨_, rfl, min_element_from_mem x rest, min_element_from_le x rest⟩

/-! ## Mode and minority -/

theorem mode_lex_max (s : RasterStats) (hne : s.m_freq ≠ []) :
    ∃ v w, s.mode = some v ∧ (v, w) ∈ s.m_freq ∧
      ∀ e ∈ s.m_freq, e ≠ (v, w) → e.2 < w ∨ (e.2 = w ∧ e.1 < v) := by
  obtain ⟨m, hm, hmem, hmax⟩ := max_element_spec s.m_freq hne
  refine ⟨m.1, m.2, ?_, hmem, ?_⟩
  · simp [RasterStats.mode, hm]
  · intro e he hne2
    have hle := hmax e he
    have hlt : rank e < rank m :=
      lt_of_le_of_ne hle (fun h => hne2 (rank_injective h))
    exact (rank_lt_iff e m).1 hlt

theorem minority_lex_min (s : RasterStats) (hne : s.m_freq ≠ []) :
    ∃ v w, s.minority = some v ∧ (v, w) ∈ s.m_freq ∧
      ∀ e ∈ s.m_freq, e ≠ (v, w) → w < e.2 ∨ (w = e.2 ∧ v < e.1) := by
  obtain ⟨m, hm, hmem, hmin⟩ := min_element_spec s.m_freq hne
  refine ⟨m.1, m.2, ?_, hmem, ?_⟩
  · simp [RasterStats.minority, hm]
  · intro e he hne2
    have hle := hmin e he
    have hlt : rank m < rank e :=
      lt_of_le_of_ne hle (fun h => hne2 (rank_injective h).symm)
    exact (rank_lt_iff m e).1 hlt

/-- C1. For every accumulator whose frequency table is non-empty, `mode()` returns the value
`v` of an entry `(v, w)` of the table such that every other entry `(v', w')` has `w' < w`, or
`w' = w` and `v' < v`. In particular, in whatever order the table is enumerated, the weights
`{3: 2, 7: 2}` give `7` and the weights `{10: 3/2, 20: 1/4}` give `10`. -/
theorem mode_returns_lex_max :
    (∀ s : RasterStats, s.m_freq ≠ [] →
      ∃ v w, s.mode = some v ∧ (v, w) ∈ s.m_freq ∧
        ∀ e ∈ s.m_freq, e ≠ (v, w) → e.2 < w ∨ (e.2 = w ∧ e.1 < v)) ∧
    (∀ s : RasterStats, s.m_freq.Perm [(3, 2), (7, 2)] → s.mode = some 7) ∧
    (∀ s : RasterStats, s.m_freq.Perm [(10, 3 / 2), (20, 1 / 4)] → s.mode = some 10) := by
  refine ⟨mode_lex_max, ?_, ?_⟩
  · intro s hp
    have hne : s.m_freq ≠ [] := by
      intro h; rw [h] at hp; simpa using hp.length_eq
    obtain ⟨v, w, hmode, hmem, hmax⟩ := mode_lex_max s hne
    have h7 : ((7 : Int), (2 : ℚ)) ∈ s.m_freq := hp.mem_iff.2 (by simp)
    have hv := hp.mem_iff.1 hmem
    simp only [List.mem_cons, List.mem_singleton, Prod.mk.injEq, List.not_mem_nil,
      or_false] at hv
    rcases hv with ⟨h1, h2⟩ | ⟨h1, h2⟩
    · subst h1; subst h2
      have := hmax _ h7 (by simp)
      norm_num at this
    · subst h1; exact hmode
  · intro s hp
    have hne : s.m_freq ≠ [] := by
      intro h; rw [h] at hp; simpa using hp.length_eq
    obtain ⟨v, w, hmode, hmem, hmax⟩ := mode_lex_max s hne
    have h10 : ((10 : Int), (3 / 2 : ℚ)) ∈ s.m_freq := hp.mem_iff.2 (by simp)
    have hv := hp.mem_iff.1 hmem
    simp only [List.mem_cons, List.mem_singleton, Prod.mk.injEq, List.not_mem_nil,
      or_false] at hv
    rcases hv with ⟨h1, h2⟩ | ⟨h1, h2⟩
    · subst h1; exact hmode
    · subst h1; subst h2
      have := hmax _ h10 (by simp)
      norm_num at this

/-- C2. For every accumulator whose frequency table is non-empty, `minority()` returns the
value `v` of an entry `(v, w)` of the table such that every other entry `(v', w')` has
`w < w'`, or `w = w'` and `v < v'`. In particular, in whatever order the table is enumerated,
the weights `{3: 2, 7: 2}` give `3` and the weights `{10: 3/2, 20: 1/4}` give `20`. -/
theorem minority_returns_lex_min :
    (∀ s : RasterStats, s.m_freq ≠ [] →
      ∃ v w, s.minority = some v ∧ (v, w) ∈ s.m_freq ∧
        ∀ e ∈ s.m_freq, e ≠ (v, w) → w < e.2 ∨ (w = e.2 ∧ v < e.1)) ∧
    (∀ s : RasterStats, s.m_freq.Perm [(3, 2), (7, 2)] → s.minority = some 3) ∧
    (∀ s : RasterStats, s.m_freq.Perm [(10, 3 / 2), (20, 1 / 4)] → s.minority = some 20) := by
  refine ⟨minority_lex_min, ?_, ?_⟩
  · intro s hp
    have hne : s.m_freq ≠ [] := by
      intro h; rw [h] at hp; simpa using hp.length_eq
    obtain ⟨v, w, hmin, hmem, hall⟩ := minority_lex_min s hne
    have h3 : ((3 : Int), (2 : ℚ)) ∈ s.m_freq := hp.mem_iff.2 (by simp)
    have hv := hp.mem_iff.1 hmem
    simp only [List.mem_cons, List.mem_singleton, Prod.mk.injEq, List.not_mem_nil,
      or_false] at hv
    rcases hv with ⟨h1, h2⟩ | ⟨h1, h2⟩
    · subst h1; exact hmin
    · subst h1; subst h2
      have := hall _ h3 (by simp)
      norm_num at this
  · intro s hp
    have hne : s.m_freq ≠ [] := by
      intro h; rw [h] at hp; simpa using hp.length_eq
    obtain ⟨v, w, hmin, hmem, hall⟩ := minority_lex_min s hne
    have h20 : ((20 : Int), (1 / 4 : ℚ)) ∈ s.m_freq := hp.mem_iff.2 (by simp)
    have hv := hp.mem_iff.1 hmem
    simp only [List.mem_cons, List.mem_singleton, Prod.mk.injEq, List.not_mem_nil,
      or_false] at hv
    rcases hv with ⟨h1, h2⟩ | ⟨h1, h2⟩
    · subst h1; subst h2
      have := hall _ h20 (by simp)
      norm_num at this
    · subst h1; exact hmin

theorem mode_returns_lex_max_witness :
    (∃ v w, tied_stats.mode = some v ∧ (v, w) ∈ tied_stats.m_freq ∧
        ∀ e ∈ tied_stats.m_freq, e ≠ (v, w) → e.2 < w ∨ (e.2 = w ∧ e.1 < v)) ∧
      tied_stats.mode = some 7 ∧ untied_stats.mode = some 10 :=
  ⟨mode_returns_lex_max.1 tied_stats (List.cons_ne_nil _ _),
    mode_returns_lex_max.2.1 tied_stats (List.Perm.refl _),
    mode_returns_lex_max.2.2 untied_stats (List.Perm.swap _ _ _)⟩

theorem minority_returns_lex_min_witness :
    (∃ v w, tied_stats.minority = some v ∧ (v, w) ∈ tied_stats.m_freq ∧
        ∀ e ∈ tied_stats.m_freq, e ≠ (v, w) → w < e.2 ∨ (w = e.2 ∧ v < e.1)) ∧
      tied_stats.minority = some 3 ∧ untied_stats.minority = some 20 :=
  ⟨minority_returns_lex_min.1 tied_stats (List.cons_ne_nil _ _),
    minority_returns_lex_min.2.1 tied_stats (List.Perm.refl _),
    minority_returns_lex_min.2.2 untied_stats (List.Perm.swap _ _ _)⟩

/-- C3. On an accumulator with `variety() == 0`, and so on a freshly constructed one,
`std::max_element` and `std::min_element` return the end iterator and `mode()` and
`minority()` dereference it: no error is raised and no value is defined. -/
theorem mode_minority_on_empty :
    (∀ s : RasterStats, s.variety = 0 → s.mode = none ∧ s.minority = none) ∧
    (∀ L : NumericLimits, (RasterStats.new L).variety = 0 ∧
      (RasterStats.new L).mode = none ∧ (RasterStats.new L).minority = none) := by
  constructor
  · intro s h
    have h0 : s.m_freq = [] := List.length_eq_zero.1 h
    simp [RasterStats.mode, RasterStats.minority, h0, max_element, min_element]
  · intro L
    simp [RasterStats.new, RasterStats.variety, RasterStats.mode, RasterStats.minority,
      max_element, min_element]

theorem mode_minority_on_empty_witness :
    (RasterStats.new int32_limits).variety = 0 ∧
      (RasterStats.new int32_limits).mode = none ∧
      (RasterStats.new int32_limits).minority = none :=
  ⟨rfl, mode_minority_on_empty.1 (RasterStats.new int32_limits) rfl⟩

/-! ## The two loops of `process` -/

theorem foldl_filterMap_step {σ β γ : Type} (f : σ → β → σ) (g : β → Option γ)
    (h : σ → γ → σ) (hstep : ∀ s b, f s b = (g b).elim s (h s))
    (l : List β) (s : σ) : l.foldl f s = (l.filterMap g).foldl h s := by
  induction l generalizing s with
  | nil => rfl
  | cons b rest ih =>
    rw [List.foldl_cons, ih, hstep, List.filterMap_cons]
    cases g b <;> rfl

theorem foldl_row_major {σ : Type} (G : σ → Nat × Nat → σ) (l1 l2 : List Nat) (s : σ) :
    l1.foldl (fun s i => l2.foldl (fun s j => G s (i, j)) s) s =
      (l1.flatMap (fun i => l2.map (fun j => (i, j)))).foldl G s := by
  induction l1 generalizing s with
  | nil => rfl
  | cons i rest ih =>
    rw [List.foldl_cons, ih, List.flatMap_cons, List.foldl_append, List.foldl_map]

theorem mem_row_major (rows cols i j : Nat) :
    (i, j) ∈ row_major rows cols ↔ i < rows ∧ j < cols := by
  simp [row_major, List.mem_flatMap]

theorem row_major_nodup (rows cols : Nat) : (row_major rows cols).Nodup := by
  unfold row_major
  rw [List.nodup_flatMap]
  refine ⟨fun i _ => ?_, ?_⟩
  · exact (List.nodup_range cols).map (fun a b h => (Prod.mk.inj h).2)
  · refine (List.nodup_range rows).pairwise_of_forall_ne ?_
    intro a _ b _ hab
    rw [Function.onFun, List.disjoint_left]
    intro x hx hx2
    rw [List.mem_map] at hx hx2
    obtain ⟨_, _, rfl⟩ := hx
    obtain ⟨_, _, h⟩ := hx2
    exact hab (Prod.mk.inj h).1.symm

theorem process_cell_eq (s : RasterStats) (pct : ℚ) (cell : Option Int) :
    s.process_cell pct cell =
      (single_contribution pct cell).elim s (fun c => s.process c.1 c.2) := by
  unfold RasterStats.process_cell single_contribution
  cases cell with
  | none => simp
  | some v => by_cases h : pct > 0 <;> simp [h]

theorem process_weighted_cell_eq (s : RasterStats) (pct : ℚ) (wcell cell : Option Int) :
    s.process_weighted_cell pct wcell cell =
      (weighted_contribution pct wcell cell).elim s (fun c => s.process c.1 c.2) := by
  unfold RasterStats.process_weighted_cell weighted_contribution
  cases wcell with
  | none => simp
  | some w =>
    cases cell with
    | none => simp
    | some v => by_cases h : pct > 0 <;> simp [h]

theorem process_raster_eq (s : RasterStats) (pcts : Nat → Nat → ℚ) (rv : RasterView Int) :
    s.process_raster pcts rv = contribute_all s (single_contributions pcts rv) := by
  unfold RasterStats.process_raster contribute_all single_contributions row_major
  rw [foldl_row_major
    (fun s ij => RasterStats.process_cell s (pcts ij.1 ij.2) (rv.get ij.1 ij.2))]
  exact foldl_filterMap_step
    (fun s (ij : Nat × Nat) => RasterStats.process_cell s (pcts ij.1 ij.2) (rv.get ij.1 ij.2))
    (fun (ij : Nat × Nat) => single_contribution (pcts ij.1 ij.2) (rv.get ij.1 ij.2))
    (fun s c => s.process c.1 c.2) (fun s b => process_cell_eq s _ _) _ s

theorem process_weighted_eq (s : RasterStats) (pcts : Nat → Nat → ℚ)
    (rv wv : RasterView Int) :
    s.process_weighted pcts rv wv = contribute_all s (weighted_contributions pcts rv wv) := by
  unfold RasterStats.process_weighted contribute_all weighted_contributions row_major
  rw [foldl_row_major
    (fun s ij => RasterStats.process_weighted_cell s (pcts ij.1 ij.2) (wv.get ij.1 ij.2)
      (rv.get ij.1 ij.2))]
  exact foldl_filterMap_step
    (fun s (ij : Nat × Nat) => RasterStats.process_weighted_cell s (pcts ij.1 ij.2)
      (wv.get ij.1 ij.2) (rv.get ij.1 ij.2))
    (fun (ij : Nat × Nat) => weighted_contribution (pcts ij.1 ij.2) (wv.get ij.1 ij.2) (rv.get ij.1 ij.2))
    (fun s c => s.process c.1 c.2) (fun s b => process_weighted_cell_eq s _ _ _) _ s

theorem contribute_all_nil (s : RasterStats) : contribute_all s [] = s := rfl

theorem contribute_all_cons (s : RasterStats) (c : Contribution) (cs : List Contribution) :
    contribute_all s (c :: cs) = contribute_all (s.process c.1 c.2) cs := rfl

theorem contribute_all_append (s : RasterStats) (cs ds : List Contribution) :
    contribute_all s (cs ++ ds) = contribute_all (contribute_all s cs) ds := by
  simp [contribute_all, List.foldl_append]

theorem process_freq_ne_nil (s : RasterStats) (v : Int) (w : ℚ) :
    (s.process v w).m_freq ≠ [] := by
  simp only [RasterStats.process]
  cases s.m_freq with
  | nil => simp [freq_add]
  | cons e rest =>
    simp only [freq_add]
    split <;> simp

/-- C4. A single-raster call leaves the state that results from applying the internal step
once for each cell, in row-major order, that has `pct > 0` and a defined value, and for no
other cell: each cell of the grid is visited exactly once, a cell with `pct <= 0` or with an
undefined value leaves the state as it is, and a grid of such cells leaves every field
unchanged. -/
theorem process_raster_contributes (s : RasterStats) (pcts : Nat → Nat → ℚ)
    (rv : RasterView Int) :
    s.process_raster pcts rv = contribute_all s (single_contributions pcts rv) ∧
    ((row_major rv.rows rv.cols).Nodup ∧
      ∀ i j, (i, j) ∈ row_major rv.rows rv.cols ↔ i < rv.rows ∧ j < rv.cols) ∧
    (∀ pct v, 0 < pct → s.process_cell pct (some v) = s.process v pct) ∧
    (∀ pct cell, pct ≤ 0 → s.process_cell pct cell = s) ∧
    (∀ pct, s.process_cell pct none = s) ∧
    ((∀ i j, i < rv.rows → j < rv.cols → pcts i j ≤ 0 ∨ rv.get i j = none) →
      s.process_raster pcts rv = s) := by
  refine ⟨process_raster_eq s pcts rv, ⟨row_major_nodup _ _, mem_row_major _ _⟩, ?_, ?_, ?_, ?_⟩
  · intro pct v h
    simp [RasterStats.process_cell, h]
  · intro pct cell h
    simp [RasterStats.process_cell, not_lt.2 h]
  · intro pct
    simp [RasterStats.process_cell]
  · intro h
    rw [process_raster_eq]
    have hnil : single_contributions pcts rv = [] := by
      unfold single_contributions
      rw [List.filterMap_eq_nil_iff]
      intro ij hij
      have hb := (mem_row_major rv.rows rv.cols ij.1 ij.2).1 hij
      rcases h ij.1 ij.2 hb.1 hb.2 with h1 | h1
      · unfold single_contribution
        cases rv.get ij.1 ij.2 with
        | none => rfl
        | some v => simp [not_lt.2 h1]
      · rw [h1]; rfl
    rw [hnil]; rfl

theorem process_raster_contributes_witness :
    (tied_stats.process_cell (1 / 2) (some 7) = tied_stats.process 7 (1 / 2)) ∧
      (tied_stats.process_cell 0 (some 7) = tied_stats) ∧
      (tied_stats.process_raster (coverage_of_rows [[0, 1], [-1, 0]])
        (view_of_rows [[some 5, none], [some 6, some 7]]) = tied_stats) :=
  ⟨(process_raster_contributes tied_stats (coverage_of_rows [[0, 1], [-1, 0]])
      (view_of_rows [[some 5, none], [some 6, some 7]])).2.2.1 (1 / 2) 7 (by norm_num),
    (process_raster_contributes tied_stats (coverage_of_rows [[0, 1], [-1, 0]])
      (view_of_rows [[some 5, none], [some 6, some 7]])).2.2.2.1 0 (some 7) (le_refl 0),
    (process_raster_contributes tied_stats (coverage_of_rows [[0, 1], [-1, 0]])
      (view_of_rows [[some 5, none], [some 6, some 7]])).2.2.2.2.2 (by
        intro i j hi hj
        have hi2 : i < 2 := hi
        have hj2 : j < 2 := hj
        interval_cases i <;> interval_cases j <;>
          simp [coverage_of_rows, view_of_rows])⟩

/-- C5. A dual-raster call leaves the state that results from applying the internal step
with `(v, pct * w)` once for each cell, in row-major order, that has `pct > 0`, a defined
weight `w` and a defined value `v`, and for no other cell. A cell whose weight is undefined
leaves the state as it is whatever its coverage and value, which on a fresh accumulator
differs from a contribution of that value with any weight, zero and `pct` included. -/
theorem process_weighted_contributes (s : RasterStats) (pcts : Nat → Nat → ℚ)
    (rv wv : RasterView Int) :
    s.process_weighted pcts rv wv = contribute_all s (weighted_contributions pcts rv wv) ∧
    ((row_major rv.rows rv.cols).Nodup ∧
      ∀ i j, (i, j) ∈ row_major rv.rows rv.cols ↔ i < rv.rows ∧ j < rv.cols) ∧
    (∀ pct w v, 0 < pct →
      s.process_weighted_cell pct (some w) (some v) = s.process v (pct * (w : ℚ))) ∧
    (∀ pct wcell cell, pct ≤ 0 → s.process_weighted_cell pct wcell cell = s) ∧
    (∀ pct wcell, s.process_weighted_cell pct wcell none = s) ∧
    (∀ pct cell, s.process_weighted_cell pct none cell = s) ∧
    (∀ (L : NumericLimits) (pct : ℚ) (v : Int) (w : ℚ),
      (RasterStats.new L).process_weighted_cell pct none (some v) ≠
        (RasterStats.new L).process v w) := by
  refine ⟨process_weighted_eq s pcts rv wv, ⟨row_major_nodup _ _, mem_row_major _ _⟩,
    ?_, ?_, ?_, ?_, ?_⟩
  · intro pct w v h
    simp [RasterStats.process_weighted_cell, h]
  · intro pct wcell cell h
    simp [RasterStats.process_weighted_cell, not_lt.2 h]
  · intro pct wcell
    unfold RasterStats.process_weighted_cell
    cases wcell <;> simp
  · intro pct cell
    simp [RasterStats.process_weighted_cell]
  · intro L pct v w h
    have h1 : (RasterStats.new L).process_weighted_cell pct none (some v) =
        RasterStats.new L := by
      simp [RasterStats.process_weighted_cell]
    rw [h1] at h
    have h2 := congrArg RasterStats.m_freq h
    exact process_freq_ne_nil (RasterStats.new L) v w h2.symm

theorem process_weighted_contributes_witness :
    (tied_stats.process_weighted_cell (1 / 2) (some 3) (some 7) =
        tied_stats.process 7 ((1 / 2) * ((3 : Int) : ℚ))) ∧
      (tied_stats.process_weighted_cell 0 (some 3) (some 7) = tied_stats) :=
  ⟨(process_weighted_contributes tied_stats (coverage_of_rows [[1]])
      (view_of_rows [[some 5]]) (view_of_rows [[none]])).2.2.1 (1 / 2) 3 7 (by norm_num),
    (process_weighted_contributes tied_stats (coverage_of_rows [[1]])
      (view_of_rows [[some 5]]) (view_of_rows [[none]])).2.2.2.1 0 (some 3) (some 7)
      (le_refl 0)⟩

/-! ## The frequency table -/

theorem find_eq_none_iff (k : Int) (freq : List (Int × ℚ)) :
    find k freq = none ↔ k ∉ keys freq := by
  induction freq with
  | nil => simp [find, keys]
  | cons e rest ih =>
    unfold find
    by_cases h : e.1 = k
    · simp [h, keys]
    · simp only [h, if_false, ih, keys, List.map_cons, List.mem_cons, not_or]
      exact ⟨fun h2 => ⟨fun h3 => h h3.symm, h2⟩, fun h2 => h2.2⟩

theorem find_eq_some_iff (k : Int) (w : ℚ) (freq : List (Int × ℚ))
    (hd : distinct_keys freq) : find k freq = some w ↔ (k, w) ∈ freq := by
  induction freq with
  | nil => simp [find]
  | cons e rest ih =>
    have hd2 : e.1 ∉ keys rest ∧ distinct_keys rest := by
      simpa [distinct_keys, keys] using hd
    unfold find
    by_cases h : e.1 = k
    · simp only [h, if_true, List.mem_cons]
      constructor
      · intro h2
        left
        exact Prod.ext h.symm (Option.some.inj h2).symm
      · intro h2
        rcases h2 with h2 | h2
        · rw [← h2]
        · exfalso
          apply hd2.1
          rw [h]
          exact List.mem_map.2 ⟨(k, w), h2, rfl⟩
    · simp only [h, if_false, List.mem_cons, ih hd2.2]
      constructor
      · exact fun h2 => Or.inr h2
      · intro h2
        rcases h2 with h2 | h2
        · exact absurd (congrArg Prod.fst h2).symm h
        · exact h2

theorem mem_keys_freq_add (k v : Int) (w : ℚ) (freq : List (Int × ℚ)) :
    k ∈ keys (freq_add v w freq) ↔ k = v ∨ k ∈ keys freq := by
  induction freq with
  | nil => simp [freq_add, keys]
  | cons e rest ih =>
    unfold freq_add
    by_cases h : e.1 = v
    · simp only [h, if_true, keys, List.map_cons, List.mem_cons]
      tauto
    · simp only [h, if_false]
      simp only [keys, List.map_cons, List.mem_cons] at ih ⊢
      rw [ih]
      tauto

theorem distinct_keys_freq_add (v : Int) (w : ℚ) (freq : List (Int × ℚ))
    (hd : distinct_keys freq) : distinct_keys (freq_add v w freq) := by
  induction freq with
  | nil => simp [freq_add, distinct_keys, keys]
  | cons e rest ih =>
    have hd2 : e.1 ∉ keys rest ∧ distinct_keys rest := by
      simpa [distinct_keys, keys] using hd
    unfold freq_add
    by_cases h : e.1 = v
    · simp only [h, if_true]
      simpa [distinct_keys, keys, h] using hd
    · simp only [h, if_false]
      have h3 : e.1 ∉ keys (freq_add v w rest) := by
        rw [mem_keys_freq_add]
        exact fun h4 => h4.elim h hd2.1
      have h4 := ih hd2.2
      simp only [distinct_keys, keys, List.map_cons, List.nodup_cons] at h3 h4 ⊢
      exact ⟨h3, h4⟩

theorem weight_in_freq_add (k v : Int) (w : ℚ) (freq : List (Int × ℚ)) :
    weight_in (freq_add v w freq) k = weight_in freq k + (if k = v then w else 0) := by
  induction freq with
  | nil =>
    by_cases h : k = v
    · simp [freq_add, weight_in, find, h]
    · have h2 : ¬ v = k := fun h3 => h h3.symm
      simp [freq_add, weight_in, find, h, h2]
  | cons e rest ih =>
    unfold freq_add
    by_cases h : e.1 = v
    · by_cases h2 : k = v
      · simp [weight_in, find, h, h2]
      · have h3 : ¬ v = k := fun h3 => h2 h3.symm
        simp [weight_in, find, h, h2, h3]
    · simp only [h, if_false]
      by_cases h2 : e.1 = k
      · have h3 : ¬ k = v := fun h3 => h (h2.trans h3)
        simp [weight_in, find, h2, h3]
      · simp only [weight_in, find, h2, if_false] at ih ⊢
        exact ih

/-! ## The state after a list of contributions -/

theorem contribute_all_weights (s : RasterStats) (cs : List Contribution) :
    (contribute_all s cs).m_weights = s.m_weights + (cs.map Prod.snd).sum := by
  induction cs generalizing s with
  | nil => simp [contribute_all]
  | cons c rest ih =>
    rw [contribute_all_cons, ih]
    simp [RasterStats.process, add_assoc]

theorem contribute_all_weighted_vals (s : RasterStats) (cs : List Contribution) :
    (contribute_all s cs).m_weighted_vals =
      s.m_weighted_vals + (cs.map (fun c => c.2 * (c.1 : ℚ))).sum := by
  induction cs generalizing s with
  | nil => simp [contribute_all]
  | cons c rest ih =>
    rw [contribute_all_cons, ih]
    simp [RasterStats.process, add_assoc]

theorem contribute_all_min (s : RasterStats) (cs : List Contribution) :
    (contribute_all s cs).m_min = (values cs).foldl Min.min s.m_min := by
  induction cs generalizing s with
  | nil => simp [contribute_all, values]
  | cons c rest ih =>
    rw [contribute_all_cons, ih]
    simp only [values, List.map_cons, List.foldl_cons, RasterStats.process]
    congr 1
    by_cases h : c.1 < s.m_min
    · simp [h, min_eq_right (le_of_lt h)]
    · simp [h, min_eq_left (not_lt.1 h)]

theorem contribute_all_max (s : RasterStats) (cs : List Contribution) :
    (contribute_all s cs).m_max = (values cs).foldl Max.max s.m_max := by
  induction cs generalizing s with
  | nil => simp [contribute_all, values]
  | cons c rest ih =>
    rw [contribute_all_cons, ih]
    simp only [values, List.map_cons, List.foldl_cons, RasterStats.process]
    congr 1
    by_cases h : c.1 > s.m_max
    · simp [h, max_eq_right (le_of_lt h)]
    · simp [h, max_eq_left (not_lt.1 h)]

theorem contribute_all_distinct_keys (s : RasterStats) (cs : List Contribution)
    (hd : distinct_keys s.m_freq) : distinct_keys (contribute_all s cs).m_freq := by
  induction cs generalizing s with
  | nil => exact hd
  | cons c rest ih =>
    rw [contribute_all_cons]
    exact ih _ (distinct_keys_freq_add _ _ _ hd)

theorem contribute_all_mem_keys (s : RasterStats) (cs : List Contribution) (k : Int) :
    k ∈ keys (contribute_all s cs).m_freq ↔ k ∈ keys s.m_freq ∨ k ∈ values cs := by
  induction cs generalizing s with
  | nil => simp [contribute_all, values]
  | cons c rest ih =>
    rw [contribute_all_cons, ih]
    simp only [RasterStats.process, mem_keys_freq_add, values, List.map_cons, List.mem_cons]
    tauto

theorem contribute_all_weight_in (s : RasterStats) (cs : List Contribution) (k : Int) :
    weight_in (contribute_all s cs).m_freq k = weight_in s.m_freq k + weight_of k cs := by
  induction cs generalizing s with
  | nil => simp [contribute_all, weight_of]
  | cons c rest ih =>
    rw [contribute_all_cons, ih]
    simp only [RasterStats.process, weight_in_freq_add, weight_of]
    by_cases h : k = c.1
    · have h2 : c.1 = k := h.symm
      simp [h2, List.filter_cons, add_assoc]
    · have h2 : ¬ c.1 = k := fun h3 => h h3.symm
      simp [h, h2, List.filter_cons]

/-! ## Running minimum and maximum -/

theorem foldl_min_le (l : List Int) (a : Int) :
    l.foldl Min.min a ≤ a ∧ ∀ v ∈ l, l.foldl Min.min a ≤ v := by
  induction l generalizing a with
  | nil => simp
  | cons x rest ih =>
    have h := ih (Min.min a x)
    refine ⟨le_trans h.1 (min_le_left a x), ?_⟩
    intro v hv
    rcases List.mem_cons.1 hv with hv | hv
    · rw [hv]; exact le_trans h.1 (min_le_right a x)
    · exact h.2 v hv

theorem foldl_min_mem (l : List Int) (a : Int) : l.foldl Min.min a ∈ a :: l := by
  induction l generalizing a with
  | nil => simp
  | cons x rest ih =>
    have h := ih (Min.min a x)
    rw [List.foldl_cons]
    rcases List.mem_cons.1 h with h | h
    · rw [h]
      rcases min_choice a x with h2 | h2
      · rw [h2]; exact List.mem_cons_self _ _
      · rw [h2]; exact List.mem_cons_of_mem _ (List.mem_cons_self _ _)
    · exact List.mem_cons_of_mem _ (List.mem_cons_of_mem _ h)

theorem foldl_max_ge (l : List Int) (a : Int) :
    a ≤ l.foldl Max.max a ∧ ∀ v ∈ l, v ≤ l.foldl Max.max a := by
  induction l generalizing a with
  | nil => simp
  | cons x rest ih =>
    have h := ih (Max.max a x)
    refine ⟨le_trans (le_max_left a x) h.1, ?_⟩
    intro v hv
    rcases List.mem_cons.1 hv with hv | hv
    · rw [hv]; exact le_trans (le_max_right a x) h.1
    · exact h.2 v hv

theorem foldl_max_mem (l : List Int) (a : Int) : l.foldl Max.max a ∈ a :: l := by
  induction l generalizing a with
  | nil => simp
  | cons x rest ih =>
    have h := ih (Max.max a x)
    rw [List.foldl_cons]
    rcases List.mem_cons.1 h with h | h
    · rw [h]
      rcases max_choice a x with h2 | h2
      · rw [h2]; exact List.mem_cons_self _ _
      · rw [h2]; exact List.mem_cons_of_mem _ (List.mem_cons_self _ _)
    · exact List.mem_cons_of_mem _ (List.mem_cons_of_mem _ h)

/-- A sentinel that bounds a non-empty list from above is replaced by the least element. -/
theorem foldl_min_mem_of_bound (l : List Int) (a : Int) (hne : l ≠ [])
    (hb : ∀ v ∈ l, v ≤ a) : l.foldl Min.min a ∈ l := by
  rcases List.mem_cons.1 (foldl_min_mem l a) with h | h
  · obtain ⟨x, hx⟩ := List.exists_mem_of_ne_nil l hne
    have h1 : a ≤ x := by
      have := (foldl_min_le l a).2 x hx
      rwa [h] at this
    have h2 : x = a := le_antisymm (hb x hx) h1
    rw [h, ← h2]; exact hx
  · exact h

/-- A sentinel that bounds a non-empty list from below is replaced by the greatest
element. -/
theorem foldl_max_mem_of_bound (l : List Int) (a : Int) (hne : l ≠ [])
    (hb : ∀ v ∈ l, a ≤ v) : l.foldl Max.max a ∈ l := by
  rcases List.mem_cons.1 (foldl_max_mem l a) with h | h
  · obtain ⟨x, hx⟩ := List.exists_mem_of_ne_nil l hne
    have h1 : x ≤ a := by
      have := (foldl_max_ge l a).2 x hx
      rwa [h] at this
    have h2 : x = a := le_antisymm h1 (hb x hx)
    rw [h, ← h2]; exact hx
  · exact h

theorem values_ne_nil (cs : List Contribution) (hne : cs ≠ []) : values cs ≠ [] := by
  cases cs with
  | nil => exact absurd rfl hne
  | cons c rest => simp [values]

theorem contribute_all_extrema (L : NumericLimits) (cs : List Contribution) (hne : cs ≠ [])
    (hr : ∀ c ∈ cs, L.representable c.1) :
    ((contribute_all (RasterStats.new L) cs).min ∈ values cs ∧
      ∀ v ∈ values cs, (contribute_all (RasterStats.new L) cs).min ≤ v) ∧
    ((contribute_all (RasterStats.new L) cs).max ∈ values cs ∧
      ∀ v ∈ values cs, v ≤ (contribute_all (RasterStats.new L) cs).max) := by
  have hv : ∀ v ∈ values cs, L.lowest ≤ v ∧ v ≤ L.max := by
    intro v hv
    obtain ⟨c, hc, rfl⟩ := List.mem_map.1 hv
    exact hr c hc
  simp only [RasterStats.min, RasterStats.max, contribute_all_min, contribute_all_max]
  refine ⟨⟨?_, ?_⟩, ⟨?_, ?_⟩⟩
  · exact foldl_min_mem_of_bound _ _ (values_ne_nil cs hne) (fun v h => (hv v h).2)
  · exact (foldl_min_le _ _).2
  · exact foldl_max_mem_of_bound _ _ (values_ne_nil cs hne) (fun v h => (hv v h).1)
  · exact (foldl_max_ge _ _).2

/-! ## Tables of a fresh accumulator -/

theorem fresh_find (L : NumericLimits) (cs : List Contribution) (k : Int) :
    find k (contribute_all (RasterStats.new L) cs).m_freq =
      if k ∈ values cs then some (weight_of k cs) else none := by
  have hk := contribute_all_mem_keys (RasterStats.new L) cs k
  have hw := contribute_all_weight_in (RasterStats.new L) cs k
  simp only [RasterStats.new, keys, List.map_nil, List.not_mem_nil, false_or] at hk
  simp only [RasterStats.new, weight_in, find, Option.getD_none, zero_add] at hw
  by_cases h : k ∈ values cs
  · rw [if_pos h]
    have h2 : find k (contribute_all (RasterStats.new L) cs).m_freq ≠ none := by
      rw [Ne, find_eq_none_iff, keys, not_not]
      exact hk.2 h
    obtain ⟨x, hx⟩ := Option.ne_none_iff_exists.1 h2
    simp only [RasterStats.new] at hx
    rw [← hx] at hw
    simp only [Option.getD_some] at hw
    simp only [RasterStats.new]
    rw [← hx, hw]
  · rw [if_neg h, find_eq_none_iff]
    exact fun h2 => h (hk.1 h2)

theorem fresh_distinct_keys (L : NumericLimits) (cs : List Contribution) :
    distinct_keys (contribute_all (RasterStats.new L) cs).m_freq :=
  contribute_all_distinct_keys _ cs (by simp [RasterStats.new, distinct_keys, keys])

theorem fresh_variety (L : NumericLimits) (cs : List Contribution) :
    (contribute_all (RasterStats.new L) cs).variety = (values cs).dedup.length := by
  have hd := fresh_distinct_keys L cs
  have h1 : (contribute_all (RasterStats.new L) cs).variety =
      (keys (contribute_all (RasterStats.new L) cs).m_freq).length := by
    simp [RasterStats.variety, keys]
  rw [h1, ← List.toFinset_card_of_nodup hd, ← List.card_toFinset]
  congr 1
  ext k
  simp only [List.mem_toFinset]
  rw [contribute_all_mem_keys]
  simp [RasterStats.new, keys]

theorem weight_of_perm (k : Int) {cs ds : List Contribution} (h : cs.Perm ds) :
    weight_of k cs = weight_of k ds :=
  ((h.filter _).map _).sum_eq

theorem distinct_keys_nodup (freq : List (Int × ℚ)) (hd : distinct_keys freq) :
    freq.Nodup := List.Nodup.of_map _ hd

theorem fresh_freq_perm (L : NumericLimits) {cs ds : List Contribution} (h : cs.Perm ds) :
    (contribute_all (RasterStats.new L) cs).m_freq.Perm
      (contribute_all (RasterStats.new L) ds).m_freq := by
  have hc := fresh_distinct_keys L cs
  have hd := fresh_distinct_keys L ds
  rw [List.perm_ext_iff_of_nodup (distinct_keys_nodup _ hc) (distinct_keys_nodup _ hd)]
  intro e
  have he : e = (e.1, e.2) := rfl
  rw [he, ← find_eq_some_iff _ _ _ hc, ← find_eq_some_iff _ _ _ hd, fresh_find, fresh_find,
    weight_of_perm e.1 h]
  have hm : e.1 ∈ values cs ↔ e.1 ∈ values ds := (h.map Prod.fst).mem_iff
  simp only [hm]

theorem max_element_perm {f g : List (Int × ℚ)} (h : f.Perm g) :
    max_element freq_less f = max_element freq_less g := by
  by_cases hf : f = []
  · have hg : g = [] := by rw [hf] at h; exact h.symm.eq_nil
    rw [hf, hg]
  · have hg : g ≠ [] := fun hg => hf (by rw [hg] at h; exact h.eq_nil)
    obtain ⟨m, hm, hmem, hmax⟩ := max_element_spec f hf
    obtain ⟨n, hn, hnmem, hnmax⟩ := max_element_spec g hg
    have h1 := hmax n (h.mem_iff.2 hnmem)
    have h2 := hnmax m (h.mem_iff.1 hmem)
    rw [hm, hn, rank_injective (le_antisymm h2 h1)]

theorem min_element_perm {f g : List (Int × ℚ)} (h : f.Perm g) :
    min_element freq_less f = min_element freq_less g := by
  by_cases hf : f = []
  · have hg : g = [] := by rw [hf] at h; exact h.symm.eq_nil
    rw [hf, hg]
  · have hg : g ≠ [] := fun hg => hf (by rw [hg] at h; exact h.eq_nil)
    obtain ⟨m, hm, hmem, hmin⟩ := min_element_spec f hf
    obtain ⟨n, hn, hnmem, hnmin⟩ := min_element_spec g hg
    have h1 := hmin n (h.mem_iff.2 hnmem)
    have h2 := hnmin m (h.mem_iff.1 hmem)
    rw [hm, hn, rank_injective (le_antisymm h1 h2)]

theorem foldl_min_perm {l m : List Int} (h : l.Perm m) (a : Int) :
    l.foldl Min.min a = m.foldl Min.min a := by
  induction h generalizing a with
  | nil => rfl
  | cons x _ ih => exact ih (Min.min a x)
  | swap x y l =>
    simp only [List.foldl_cons]
    rw [min_right_comm]
  | trans _ _ ih1 ih2 => exact (ih1 a).trans (ih2 a)

theorem foldl_max_perm {l m : List Int} (h : l.Perm m) (a : Int) :
    l.foldl Max.max a = m.foldl Max.max a := by
  induction h generalizing a with
  | nil => rfl
  | cons x _ ih => exact ih (Max.max a x)
  | swap x y l =>
    simp only [List.foldl_cons]
    rw [max_assoc, max_comm y x, ← max_assoc]
  | trans _ _ ih1 ih2 => exact (ih1 a).trans (ih2 a)

/-! ## Statistics of a fresh accumulator after a list of contributions -/

/-- C6. After the contributions `(v_1, w_1), ..., (v_n, w_n)` on a fresh accumulator,
`count()` is the sum of the `w_i`, `sum()` is the sum of the `w_i * v_i`, and `mean()` is
the quotient `sum() / count()`, which has a value exactly when `count()` is not zero. -/
theorem definitional_identities (L : NumericLimits) (cs : List Contribution) :
    (contribute_all (RasterStats.new L) cs).count = (cs.map Prod.snd).sum ∧
    (contribute_all (RasterStats.new L) cs).sum = (cs.map (fun c => c.2 * (c.1 : ℚ))).sum ∧
    (contribute_all (RasterStats.new L) cs).mean =
      (if (contribute_all (RasterStats.new L) cs).count = 0 then none
        else some ((contribute_all (RasterStats.new L) cs).sum /
          (contribute_all (RasterStats.new L) cs).count)) ∧
    (contribute_all (RasterStats.new L) cs).mean =
      (if (cs.map Prod.snd).sum = 0 then none
        else some ((cs.map (fun c => c.2 * (c.1 : ℚ))).sum / (cs.map Prod.snd).sum)) := by
  have hc : (contribute_all (RasterStats.new L) cs).count = (cs.map Prod.snd).sum := by
    simp [RasterStats.count, contribute_all_weights, RasterStats.new]
  have hs : (contribute_all (RasterStats.new L) cs).sum =
      (cs.map (fun c => c.2 * (c.1 : ℚ))).sum := by
    simp [RasterStats.sum, contribute_all_weighted_vals, RasterStats.new]
  refine ⟨hc, hs, rfl, ?_⟩
  rw [← hc, ← hs]
  rfl

/-- C7, as the code has it. After a non-empty list of contributions of representable values
on a fresh accumulator, `min()` is the least and `max()` the greatest of all the values
contributed, whatever the weights of the contributions are. -/
theorem extrema_of_all_values (L : NumericLimits) (cs : List Contribution) (hne : cs ≠ [])
    (hr : ∀ c ∈ cs, L.representable c.1) :
    ((contribute_all (RasterStats.new L) cs).min ∈ values cs ∧
      ∀ v ∈ values cs, (contribute_all (RasterStats.new L) cs).min ≤ v) ∧
    ((contribute_all (RasterStats.new L) cs).max ∈ values cs ∧
      ∀ v ∈ values cs, v ≤ (contribute_all (RasterStats.new L) cs).max) :=
  contribute_all_extrema L cs hne hr

theorem extrema_of_all_values_witness :
    ((contribute_all (RasterStats.new int32_limits) [(5, 0), (10, 1)]).min ∈
        values [(5, 0), (10, 1)] ∧
      ∀ v ∈ values [(5, 0), (10, 1)],
        (contribute_all (RasterStats.new int32_limits) [(5, 0), (10, 1)]).min ≤ v) ∧
    ((contribute_all (RasterStats.new int32_limits) [(5, 0), (10, 1)]).max ∈
        values [(5, 0), (10, 1)] ∧
      ∀ v ∈ values [(5, 0), (10, 1)],
        v ≤ (contribute_all (RasterStats.new int32_limits) [(5, 0), (10, 1)]).max) :=
  extrema_of_all_values int32_limits [(5, 0), (10, 1)] (List.cons_ne_nil _ _) (by
    intro c hc
    simp only [List.mem_cons, List.mem_singleton, List.not_mem_nil, or_false] at hc
    rcases hc with rfl | rfl <;>
      simp [NumericLimits.representable, int32_limits])

/-- C7, as stated, fails. A dual-raster call on a fresh accumulator over two fully covered
cells with values `5` and `10` and weights `0` and `1` makes the contributions `(5, 0)` and
`(10, 1)`. The only value contributed with positive weight is `10`, and `min()` is `5`. -/
theorem extrema_positive_weight_counterexample :
    (RasterStats.new int32_limits).process_weighted (coverage_of_rows [[1, 1]])
        (view_of_rows [[some 5, some 10]]) (view_of_rows [[some 0, some 1]]) =
      contribute_all (RasterStats.new int32_limits) [(5, 0), (10, 1)] ∧
    positive_values [(5, 0), (10, 1)] = [10] ∧
    (contribute_all (RasterStats.new int32_limits) [(5, 0), (10, 1)]).min = 5 ∧
    ¬ ((contribute_all (RasterStats.new int32_limits) [(5, 0), (10, 1)]).min ∈
          positive_values [(5, 0), (10, 1)] ∧
        ∀ v ∈ positive_values [(5, 0), (10, 1)],
          (contribute_all (RasterStats.new int32_limits) [(5, 0), (10, 1)]).min ≤ v) := by
  have hp : positive_values [(5, 0), (10, 1)] = [10] := by
    simp [positive_values, values, List.filter_cons]
  have hm : (contribute_all (RasterStats.new int32_limits) [(5, 0), (10, 1)]).min = 5 := by
    simp [contribute_all, RasterStats.process, RasterStats.new, RasterStats.min,
      int32_limits]
  refine ⟨?_, hp, hm, ?_⟩
  · rw [process_weighted_eq]
    congr 1
    simp [weighted_contributions, row_major, view_of_rows, weighted_contribution,
      coverage_of_rows, List.range_succ]
  · rw [hp, hm]
    simp

/-- C8. After a list of contributions on a fresh accumulator, `variety()` is the number of
distinct values among them: no key occurs twice in the table, and the weight under a key is
the sum of the weights of all the contributions of that value. -/
theorem variety_counts_distinct_values (L : NumericLimits) (cs : List Contribution) :
    (contribute_all (RasterStats.new L) cs).variety = (values cs).dedup.length ∧
    distinct_keys (contribute_all (RasterStats.new L) cs).m_freq ∧
    (∀ k, find k (contribute_all (RasterStats.new L) cs).m_freq =
      if k ∈ values cs then some (weight_of k cs) else none) :=
  ⟨fresh_variety L cs, fresh_distinct_keys L cs, fresh_find L cs⟩

/-- C9. Two lists of contributions that are permutations of each other, applied to a fresh
accumulator, give the same `sum()`, `count()`, `min()` and `max()` and the same frequency
table: the same entries, so the same weight under every key. The accessors `variety()`,
`mean()`, `mode()` and `minority()` agree as well. -/
theorem contributions_commute (L : NumericLimits) (cs ds : List Contribution)
    (h : cs.Perm ds) :
    (contribute_all (RasterStats.new L) cs).sum = (contribute_all (RasterStats.new L) ds).sum ∧
    (contribute_all (RasterStats.new L) cs).count =
      (contribute_all (RasterStats.new L) ds).count ∧
    (contribute_all (RasterStats.new L) cs).min = (contribute_all (RasterStats.new L) ds).min ∧
    (contribute_all (RasterStats.new L) cs).max = (contribute_all (RasterStats.new L) ds).max ∧
    (contribute_all (RasterStats.new L) cs).m_freq.Perm
      (contribute_all (RasterStats.new L) ds).m_freq ∧
    (∀ k, find k (contribute_all (RasterStats.new L) cs).m_freq =
      find k (contribute_all (RasterStats.new L) ds).m_freq) ∧
    (contribute_all (RasterStats.new L) cs).variety =
      (contribute_all (RasterStats.new L) ds).variety ∧
    (contribute_all (RasterStats.new L) cs).mean =
      (contribute_all (RasterStats.new L) ds).mean ∧
    (contribute_all (RasterStats.new L) cs).mode =
      (contribute_all (RasterStats.new L) ds).mode ∧
    (contribute_all (RasterStats.new L) cs).minority =
      (contribute_all (RasterStats.new L) ds).minority := by
  have hsum : (contribute_all (RasterStats.new L) cs).sum =
      (contribute_all (RasterStats.new L) ds).sum := by
    simp only [RasterStats.sum, contribute_all_weighted_vals]
    rw [(h.map _).sum_eq]
  have hcount : (contribute_all (RasterStats.new L) cs).count =
      (contribute_all (RasterStats.new L) ds).count := by
    simp only [RasterStats.count, contribute_all_weights]
    rw [(h.map _).sum_eq]
  have hperm := fresh_freq_perm L h
  refine ⟨hsum, hcount, ?_, ?_, hperm, ?_, ?_, ?_, ?_, ?_⟩
  · simp only [RasterStats.min, contribute_all_min]
    exact foldl_min_perm (h.map _) _
  · simp only [RasterStats.max, contribute_all_max]
    exact foldl_max_perm (h.map _) _
  · intro k
    rw [fresh_find, fresh_find, weight_of_perm k h]
    have hm : k ∈ values cs ↔ k ∈ values ds := (h.map Prod.fst).mem_iff
    simp only [hm]
  · simp only [RasterStats.variety]
    exact hperm.length_eq
  · simp only [RasterStats.mean, hsum, hcount]
  · simp only [RasterStats.mode, max_element_perm hperm]
  · simp only [RasterStats.minority, min_element_perm hperm]

theorem contributions_commute_witness :
    (contribute_all (RasterStats.new uint8_limits) [(10, 1), (20, 1 / 4), (10, 1 / 2)]).m_freq.Perm
      (contribute_all (RasterStats.new uint8_limits) [(20, 1 / 4), (10, 1), (10, 1 / 2)]).m_freq :=
  (contributions_commute uint8_limits [(10, 1), (20, 1 / 4), (10, 1 / 2)]
    [(20, 1 / 4), (10, 1), (10, 1 / 2)] (List.Perm.swap _ _ _)).2.2.2.2.1

/-- C10. A freshly constructed accumulator has `count() == 0`, `sum() == 0` and
`variety() == 0`; its `min()` is the greatest and its `max()` the lowest representable
value of the value type. -/
theorem fresh_accumulator (L : NumericLimits) :
    (RasterStats.new L).count = 0 ∧ (RasterStats.new L).sum = 0 ∧
    (RasterStats.new L).variety = 0 ∧ (RasterStats.new L).min = L.max ∧
    (RasterStats.new L).max = L.lowest :=
  ⟨rfl, rfl, rfl, rfl, rfl⟩

/-! ## The calls of the internal step made by the entry points -/

theorem foldl_flatMap_step {σ β γ : Type} (f : σ → β → σ) (g : β → List γ)
    (h : σ → γ → σ) (hstep : ∀ s b, f s b = (g b).foldl h s)
    (l : List β) (s : σ) : l.foldl f s = (l.flatMap g).foldl h s := by
  induction l generalizing s with
  | nil => rfl
  | cons b rest ih =>
    rw [List.foldl_cons, ih, hstep, List.flatMap_cons, List.foldl_append]

theorem process_cell_calls_eq (s : RasterStats) (pct : ℚ) (cell : Option Int) :
    s.process_cell pct cell = contribute_all s (process_cell_calls pct cell) := by
  unfold RasterStats.process_cell process_cell_calls
  by_cases h : pct > 0
  · cases cell <;> simp [h, contribute_all]
  · simp [h, contribute_all]

theorem process_weighted_cell_calls_eq (s : RasterStats) (pct : ℚ) (wcell cell : Option Int) :
    s.process_weighted_cell pct wcell cell =
      contribute_all s (process_weighted_cell_calls pct wcell cell) := by
  unfold RasterStats.process_weighted_cell process_weighted_cell_calls
  by_cases h : pct > 0
  · cases wcell <;> cases cell <;> simp [h, contribute_all]
  · simp [h, contribute_all]

theorem process_raster_calls_eq (s : RasterStats) (pcts : Nat → Nat → ℚ)
    (rv : RasterView Int) :
    s.process_raster pcts rv = contribute_all s (process_raster_calls pcts rv) := by
  unfold RasterStats.process_raster process_raster_calls contribute_all
  refine foldl_flatMap_step _ _ _ (fun s i => ?_) _ s
  exact foldl_flatMap_step
    (fun s (j : Nat) => RasterStats.process_cell s (pcts i j) (rv.get i j))
    (fun (j : Nat) => process_cell_calls (pcts i j) (rv.get i j))
    (fun s c => s.process c.1 c.2) (fun s j => process_cell_calls_eq s _ _) _ s

theorem process_weighted_calls_eq (s : RasterStats) (iv : Nat → Nat → ℚ)
    (rv wv : RasterView Int) :
    s.process_weighted iv rv wv = contribute_all s (process_weighted_calls iv rv wv) := by
  unfold RasterStats.process_weighted process_weighted_calls contribute_all
  refine foldl_flatMap_step _ _ _ (fun s i => ?_) _ s
  exact foldl_flatMap_step
    (fun s (j : Nat) => RasterStats.process_weighted_cell s (iv i j) (wv.get i j)
      (rv.get i j))
    (fun (j : Nat) => process_weighted_cell_calls (iv i j) (wv.get i j) (rv.get i j))
    (fun s c => s.process c.1 c.2) (fun s j => process_weighted_cell_calls_eq s _ _ _) _ s

theorem call_eq (s : RasterStats) (call : Call) :
    s.call call = contribute_all s call.calls := by
  cases call with
  | single pcts rv => exact process_raster_calls_eq s pcts rv
  | weighted iv rv wv => exact process_weighted_calls_eq s iv rv wv

theorem run_eq (s : RasterStats) (calls : List Call) :
    run s calls = contribute_all s (calls.flatMap Call.calls) := by
  unfold run contribute_all
  exact foldl_flatMap_step _ _ _ (fun s c => call_eq s c) _ s

theorem mem_process_cell_calls (pct : ℚ) (cell : Option Int) (c : Contribution) :
    c ∈ process_cell_calls pct cell ↔ 0 < pct ∧ cell = some c.1 ∧ c.2 = pct := by
  unfold process_cell_calls
  by_cases h : pct > 0
  · cases cell with
    | none => simp [h]
    | some v =>
      simp only [h, if_true, List.mem_singleton, true_and, Option.some.injEq]
      constructor
      · intro hc; rw [hc]; exact ⟨rfl, rfl⟩
      · intro hc; exact Prod.ext hc.1.symm hc.2
  · simp [h]

theorem mem_process_weighted_cell_calls (pct : ℚ) (wcell cell : Option Int)
    (c : Contribution) :
    c ∈ process_weighted_cell_calls pct wcell cell ↔
      0 < pct ∧ cell = some c.1 ∧ ∃ w : Int, wcell = some w ∧ c.2 = pct * (w : ℚ) := by
  unfold process_weighted_cell_calls
  by_cases h : pct > 0
  · cases wcell with
    | none => simp [h]
    | some w =>
      cases cell with
      | none => simp [h]
      | some v =>
        simp only [h, if_true, List.mem_singleton, true_and, Option.some.injEq]
        constructor
        · intro hc; rw [hc]; exact ⟨rfl, w, rfl, rfl⟩
        · rintro ⟨h1, w2, h2, h3⟩
          rw [h2]
          exact Prod.ext h1.symm h3
  · simp [h]

theorem mem_process_raster_calls (pcts : Nat → Nat → ℚ) (rv : RasterView Int)
    (c : Contribution) :
    c ∈ process_raster_calls pcts rv ↔
      ∃ i j, i < rv.rows ∧ j < rv.cols ∧ 0 < pcts i j ∧ rv.get i j = some c.1 ∧
        c.2 = pcts i j := by
  simp only [process_raster_calls, List.mem_flatMap, List.mem_range, mem_process_cell_calls]
  constructor
  · rintro ⟨i, hi, j, hj, h⟩
    exact ⟨i, j, hi, hj, h⟩
  · rintro ⟨i, j, hi, hj, h⟩
    exact ⟨i, hi, j, hj, h⟩

theorem mem_process_weighted_calls (iv : Nat → Nat → ℚ) (rv wv : RasterView Int)
    (c : Contribution) :
    c ∈ process_weighted_calls iv rv wv ↔
      ∃ i j, i < rv.rows ∧ j < rv.cols ∧ 0 < iv i j ∧ rv.get i j = some c.1 ∧
        ∃ w : Int, wv.get i j = some w ∧ c.2 = iv i j * (w : ℚ) := by
  simp only [process_weighted_calls, List.mem_flatMap, List.mem_range,
    mem_process_weighted_cell_calls]
  constructor
  · rintro ⟨i, hi, j, hj, h⟩
    exact ⟨i, j, hi, hj, h⟩
  · rintro ⟨i, j, hi, hj, h⟩
    exact ⟨i, hi, j, hj, h⟩

/-! ## Invariants of the accumulation -/

theorem weights_sum_freq_add (v : Int) (w : ℚ) (freq : List (Int × ℚ)) :
    weights_sum (freq_add v w freq) = weights_sum freq + w := by
  induction freq with
  | nil => simp [freq_add, weights_sum]
  | cons e rest ih =>
    unfold freq_add
    by_cases h : e.1 = v
    · simp only [h, if_true, weights_sum, List.map_cons, List.sum_cons]
      ring
    · simp only [h, if_false]
      simp only [weights_sum, List.map_cons, List.sum_cons] at ih ⊢
      rw [ih]; ring

theorem process_weights_sum (s : RasterStats) (v : Int) (w : ℚ)
    (h : s.m_weights = weights_sum s.m_freq) :
    (s.process v w).m_weights = weights_sum (s.process v w).m_freq := by
  simp only [RasterStats.process, weights_sum_freq_add, h]

theorem contribute_all_weights_sum (s : RasterStats) (cs : List Contribution)
    (h : s.m_weights = weights_sum s.m_freq) :
    (contribute_all s cs).m_weights = weights_sum (contribute_all s cs).m_freq := by
  induction cs generalizing s with
  | nil => exact h
  | cons c rest ih =>
    rw [contribute_all_cons]
    exact ih _ (process_weights_sum s c.1 c.2 h)

theorem freq_add_positive (v : Int) (w : ℚ) (freq : List (Int × ℚ)) (hw : 0 < w)
    (hf : ∀ e ∈ freq, 0 < e.2) : ∀ e ∈ freq_add v w freq, 0 < e.2 := by
  induction freq with
  | nil =>
    intro e he
    simp only [freq_add, List.mem_singleton] at he
    rw [he]; simpa using hw
  | cons x rest ih =>
    have hx : 0 < x.2 := hf x (List.mem_cons_self _ _)
    have hrest : ∀ e ∈ rest, 0 < e.2 := fun e he => hf e (List.mem_cons_of_mem _ he)
    intro e he
    unfold freq_add at he
    by_cases h : x.1 = v
    · simp only [h, if_true, List.mem_cons] at he
      rcases he with he | he
      · rw [he]; exact add_pos hx hw
      · exact hrest e he
    · simp only [h, if_false, List.mem_cons] at he
      rcases he with he | he
      · rw [he]; exact hx
      · exact ih hrest e he

theorem contribute_all_positive (s : RasterStats) (cs : List Contribution)
    (hs : ∀ e ∈ s.m_freq, 0 < e.2) (hc : ∀ c ∈ cs, 0 < c.2) :
    ∀ e ∈ (contribute_all s cs).m_freq, 0 < e.2 := by
  induction cs generalizing s with
  | nil => exact hs
  | cons c rest ih =>
    rw [contribute_all_cons]
    refine ih _ ?_ (fun d hd => hc d (List.mem_cons_of_mem _ hd))
    exact freq_add_positive c.1 c.2 s.m_freq (hc c (List.mem_cons_self _ _)) hs

theorem weights_sum_pos (freq : List (Int × ℚ)) (hne : freq ≠ [])
    (hf : ∀ e ∈ freq, 0 < e.2) : 0 < weights_sum freq := by
  cases freq with
  | nil => exact absurd rfl hne
  | cons x rest =>
    simp only [weights_sum, List.map_cons, List.sum_cons]
    have hx : 0 < x.2 := hf x (List.mem_cons_self _ _)
    have hrest : 0 ≤ (rest.map Prod.snd).sum := by
      apply List.sum_nonneg
      intro w hw
      obtain ⟨e, he, rfl⟩ := List.mem_map.1 hw
      exact le_of_lt (hf e (List.mem_cons_of_mem _ he))
    exact add_pos_of_pos_of_nonneg hx hrest

theorem fresh_freq_ne_nil_iff (L : NumericLimits) (cs : List Contribution) :
    (contribute_all (RasterStats.new L) cs).m_freq ≠ [] ↔ cs ≠ [] := by
  constructor
  · intro h hcs
    rw [hcs] at h
    exact h rfl
  · intro h
    cases cs with
    | nil => exact absurd rfl h
    | cons c rest =>
      intro h2
      have hk : c.1 ∈ keys (contribute_all (RasterStats.new L) (c :: rest)).m_freq := by
        rw [contribute_all_mem_keys]
        right
        simp [values]
      rw [h2] at hk
      simp [keys] at hk

theorem fresh_mem_keys (L : NumericLimits) (cs : List Contribution) (k : Int) :
    k ∈ keys (contribute_all (RasterStats.new L) cs).m_freq ↔ k ∈ values cs := by
  rw [contribute_all_mem_keys]
  simp [RasterStats.new, keys]

theorem fresh_keys_between (L : NumericLimits) (cs : List Contribution) :
    ∀ k ∈ keys (contribute_all (RasterStats.new L) cs).m_freq,
      (contribute_all (RasterStats.new L) cs).m_min ≤ k ∧
        k ≤ (contribute_all (RasterStats.new L) cs).m_max := by
  intro k hk
  rw [fresh_mem_keys] at hk
  rw [contribute_all_min, contribute_all_max]
  exact ⟨(foldl_min_le _ _).2 k hk, (foldl_max_ge _ _).2 k hk⟩

theorem calls_representable (L : NumericLimits) (calls : List Call)
    (hr : ∀ call ∈ calls, call.values_representable L) :
    ∀ c ∈ calls.flatMap Call.calls, L.representable c.1 := by
  intro c hc
  obtain ⟨call, hcall, hmem⟩ := List.mem_flatMap.1 hc
  have h := hr call hcall
  cases call with
  | single pcts rv =>
    obtain ⟨i, j, _, _, _, hget, _⟩ := (mem_process_raster_calls pcts rv c).1 hmem
    exact h i j c.1 hget
  | weighted iv rv wv =>
    obtain ⟨i, j, _, _, _, hget, _⟩ := (mem_process_weighted_calls iv rv wv c).1 hmem
    exact h i j c.1 hget

theorem single_calls_positive (calls : List Call)
    (hs : ∀ call ∈ calls, call.is_single = true) :
    ∀ c ∈ calls.flatMap Call.calls, 0 < c.2 := by
  intro c hc
  obtain ⟨call, hcall, hmem⟩ := List.mem_flatMap.1 hc
  have h := hs call hcall
  cases call with
  | single pcts rv =>
    obtain ⟨i, j, _, _, hpos, _, hw⟩ := (mem_process_raster_calls pcts rv c).1 hmem
    rw [hw]; exact hpos
  | weighted iv rv wv => simp [Call.is_single] at h

theorem nonneg_calls_nonneg (calls : List Call)
    (hs : ∀ call ∈ calls, call.weights_nonneg) :
    ∀ c ∈ calls.flatMap Call.calls, 0 ≤ c.2 := by
  intro c hc
  obtain ⟨call, hcall, hmem⟩ := List.mem_flatMap.1 hc
  have h := hs call hcall
  cases call with
  | single pcts rv =>
    obtain ⟨i, j, _, _, hpos, _, hw⟩ := (mem_process_raster_calls pcts rv c).1 hmem
    rw [hw]; exact le_of_lt hpos
  | weighted iv rv wv =>
    obtain ⟨i, j, _, _, hpos, _, w, hget, hw⟩ :=
      (mem_process_weighted_calls iv rv wv c).1 hmem
    rw [hw]
    have hw0 : (0 : ℚ) ≤ (w : ℚ) := by exact_mod_cast h i j w hget
    exact mul_nonneg (le_of_lt hpos) hw0

/-! ## The end-to-end scenario -/

theorem scenario_contributions :
    single_contributions scenario_coverage scenario_values =
      [(10, 1), (10, 1 / 2), (20, 1 / 4)] := by
  simp [single_contributions, scenario_coverage, scenario_values, row_major, view_of_rows,
    coverage_of_rows, single_contribution, List.range_succ]

theorem scenario_table (L : NumericLimits) :
    (contribute_all (RasterStats.new L) [(10, 1), (10, 1 / 2), (20, 1 / 4)]).m_freq =
      [(10, 3 / 2), (20, 1 / 4)] := by
  simp [contribute_all, RasterStats.process, RasterStats.new, freq_add]
  norm_num

/-- C11. A single-raster call on a fresh accumulator over the four cells with coverage
fractions `[1, 1/2, 0, 1/4]` and values `[10, 10, 20, 20]` gives `count() == 7/4`,
`sum() == 20`, `mean() == 20 / (7/4)`, which lies between 11.4285 and 11.4287, `min() == 10`,
`max() == 20`, `variety() == 2`, `mode() == 10` and `minority() == 20`. -/
theorem end_to_end_scenario (L : NumericLimits) (h10 : L.representable 10)
    (h20 : L.representable 20) :
    ((RasterStats.new L).process_raster scenario_coverage scenario_values).count = 7 / 4 ∧
    ((RasterStats.new L).process_raster scenario_coverage scenario_values).sum = 20 ∧
    ((RasterStats.new L).process_raster scenario_coverage scenario_values).mean =
      some (20 / (7 / 4)) ∧
    ((114285 : ℚ) / 10000 < 20 / (7 / 4) ∧ (20 : ℚ) / (7 / 4) < 114287 / 10000) ∧
    ((RasterStats.new L).process_raster scenario_coverage scenario_values).min = 10 ∧
    ((RasterStats.new L).process_raster scenario_coverage scenario_values).max = 20 ∧
    ((RasterStats.new L).process_raster scenario_coverage scenario_values).variety = 2 ∧
    ((RasterStats.new L).process_raster scenario_coverage scenario_values).mode = some 10 ∧
    ((RasterStats.new L).process_raster scenario_coverage scenario_values).minority =
      some 20 := by
  rw [process_raster_eq, scenario_contributions]
  have hcount : (contribute_all (RasterStats.new L)
      [(10, 1), (10, 1 / 2), (20, 1 / 4)]).count = 7 / 4 := by
    simp [RasterStats.count, contribute_all_weights, RasterStats.new]
    norm_num
  have hsum : (contribute_all (RasterStats.new L)
      [(10, 1), (10, 1 / 2), (20, 1 / 4)]).sum = 20 := by
    simp [RasterStats.sum, contribute_all_weighted_vals, RasterStats.new]
    norm_num
  have hext := contribute_all_extrema L [(10, 1), (10, 1 / 2), (20, 1 / 4)]
    (List.cons_ne_nil _ _) (by
      intro c hc
      simp only [List.mem_cons, List.mem_singleton, List.not_mem_nil, or_false] at hc
      rcases hc with rfl | rfl | rfl
      · exact h10
      · exact h10
      · exact h20)
  have hvals : values [((10 : Int), (1 : ℚ)), (10, 1 / 2), (20, 1 / 4)] = [10, 10, 20] := rfl
  rw [hvals] at hext
  obtain ⟨⟨hmin1, hmin2⟩, ⟨hmax1, hmax2⟩⟩ := hext
  refine ⟨hcount, hsum, ?_, ⟨by norm_num, by norm_num⟩, ?_, ?_, ?_, ?_, ?_⟩
  · simp only [RasterStats.mean, hcount, hsum]
    norm_num
  · have h1 := hmin2 10 (by simp)
    simp only [List.mem_cons, List.mem_singleton, List.not_mem_nil, or_false] at hmin1
    rcases hmin1 with h | h | h
    · exact h
    · exact h
    · omega
  · have h1 := hmax2 20 (by simp)
    simp only [List.mem_cons, List.mem_singleton, List.not_mem_nil, or_false] at hmax1
    rcases hmax1 with h | h | h
    · omega
    · omega
    · exact h
  · simp only [RasterStats.variety, scenario_table]
    rfl
  · simp only [RasterStats.mode, scenario_table, max_element, max_element_from, freq_less]
    norm_num
  · simp only [RasterStats.minority, scenario_table, min_element, min_element_from,
      freq_less]
    norm_num

theorem end_to_end_scenario_witness :
    ((RasterStats.new int32_limits).process_raster scenario_coverage scenario_values).count =
        7 / 4 ∧
      ((RasterStats.new int32_limits).process_raster scenario_coverage scenario_values).mode =
        some 10 :=
  ⟨(end_to_end_scenario int32_limits (by decide) (by decide)).1,
    (end_to_end_scenario int32_limits (by decide) (by decide)).2.2.2.2.2.2.2.1⟩

/-! ## Reachable states -/

theorem view_of_single_cell (x : Option Int) (i j : Nat) (w : Int)
    (h : (view_of_rows [[x]]).get i j = some w) : x = some w := by
  rcases i with _ | i <;> rcases j with _ | j <;> simp [view_of_rows] at h
  exact h

/-- C12, as the code has it. In every state reached from a fresh accumulator by single-raster
calls and by dual-raster calls whose weight raster holds no negative weight, the total
weight is not negative. -/
theorem total_weight_nonneg (L : NumericLimits) (calls : List Call)
    (h : ∀ call ∈ calls, call.weights_nonneg) :
    0 ≤ (run (RasterStats.new L) calls).m_weights := by
  rw [run_eq, contribute_all_weights]
  have h0 : (RasterStats.new L).m_weights = 0 := rfl
  rw [h0, zero_add]
  apply List.sum_nonneg
  intro w hw
  obtain ⟨c, hc, rfl⟩ := List.mem_map.1 hw
  exact nonneg_calls_nonneg calls h c hc

theorem total_weight_nonneg_witness :
    0 ≤ (run (RasterStats.new int32_limits)
      [Call.single scenario_coverage scenario_values,
        Call.weighted (coverage_of_rows [[1]]) (view_of_rows [[some 5]])
          (view_of_rows [[some 0]])]).m_weights :=
  total_weight_nonneg int32_limits _ (by
    intro call hcall
    simp only [List.mem_cons, List.mem_singleton, List.not_mem_nil, or_false] at hcall
    rcases hcall with rfl | rfl
    · exact True.intro
    · intro i j w hw
      have h := view_of_single_cell (some 0) i j w hw
      exact le_of_eq (Option.some.inj h))

/-- C12, as stated, fails. A dual-raster call on a fresh accumulator over one fully covered
cell with value `5` and weight `-1` leaves the total weight `-1`. -/
theorem total_weight_negative_counterexample :
    (run (RasterStats.new int32_limits)
      [Call.weighted (coverage_of_rows [[1]]) (view_of_rows [[some 5]])
        (view_of_rows [[some (-1)]])]).m_weights = -1 ∧
    ¬ (0 ≤ (run (RasterStats.new int32_limits)
      [Call.weighted (coverage_of_rows [[1]]) (view_of_rows [[some 5]])
        (view_of_rows [[some (-1)]])]).m_weights) := by
  have h : (run (RasterStats.new int32_limits)
      [Call.weighted (coverage_of_rows [[1]]) (view_of_rows [[some 5]])
        (view_of_rows [[some (-1)]])]).m_weights = -1 := by
    simp [run, RasterStats.call, RasterStats.process_weighted, view_of_rows,
      coverage_of_rows, RasterStats.process_weighted_cell, RasterStats.process,
      RasterStats.new, List.range_succ]
  refine ⟨h, ?_⟩
  rw [h]
  norm_num

/-- C13. In every state reached from a fresh accumulator by calls of the two entry points,
the total weight is the sum of the weights stored in the frequency table: the constructor
establishes the equality and every call of the internal step preserves it. -/
theorem total_weight_is_table_sum :
    (∀ (L : NumericLimits) (calls : List Call),
      (run (RasterStats.new L) calls).m_weights =
        weights_sum (run (RasterStats.new L) calls).m_freq) ∧
    (∀ L : NumericLimits,
      (RasterStats.new L).m_weights = weights_sum (RasterStats.new L).m_freq) ∧
    (∀ (s : RasterStats) (v : Int) (w : ℚ), s.m_weights = weights_sum s.m_freq →
      (s.process v w).m_weights = weights_sum (s.process v w).m_freq) := by
  refine ⟨?_, fun L => rfl, process_weights_sum⟩
  intro L calls
  rw [run_eq]
  exact contribute_all_weights_sum _ _ rfl

theorem total_weight_is_table_sum_witness :
    (tied_stats.process 7 (1 / 2)).m_weights =
      weights_sum (tied_stats.process 7 (1 / 2)).m_freq :=
  total_weight_is_table_sum.2.2 tied_stats 7 (1 / 2) (by
    simp [tied_stats, weights_sum]
    norm_num)

/-- C14, as the code has it. The single-raster entry point passes to the internal step a
weight `pct > 0` at every call. The dual-raster entry point passes `pct * w`, where
`pct > 0` and `w` is the defined weight of the cell, which it does not test: the weight
passed is positive exactly when `w` is, and so at every call when every defined weight of
the weight raster is positive. -/
theorem internal_step_weights :
    (∀ (s : RasterStats) (pcts : Nat → Nat → ℚ) (rv : RasterView Int),
      s.process_raster pcts rv = contribute_all s (process_raster_calls pcts rv) ∧
      ∀ c ∈ process_raster_calls pcts rv, 0 < c.2) ∧
    (∀ (s : RasterStats) (iv : Nat → Nat → ℚ) (rv wv : RasterView Int),
      s.process_weighted iv rv wv = contribute_all s (process_weighted_calls iv rv wv) ∧
      (∀ c ∈ process_weighted_calls iv rv wv,
        ∃ i j, ∃ w : Int, 0 < iv i j ∧ wv.get i j = some w ∧ c.2 = iv i j * (w : ℚ) ∧
          (0 < c.2 ↔ 0 < w)) ∧
      ((∀ i j w, wv.get i j = some w → 0 < w) →
        ∀ c ∈ process_weighted_calls iv rv wv, 0 < c.2)) := by
  constructor
  · intro s pcts rv
    refine ⟨process_raster_calls_eq s pcts rv, ?_⟩
    intro c hc
    obtain ⟨i, j, _, _, hpos, _, hw⟩ := (mem_process_raster_calls pcts rv c).1 hc
    rw [hw]; exact hpos
  · intro s iv rv wv
    have hall : ∀ c ∈ process_weighted_calls iv rv wv,
        ∃ i j, ∃ w : Int, 0 < iv i j ∧ wv.get i j = some w ∧ c.2 = iv i j * (w : ℚ) ∧
          (0 < c.2 ↔ 0 < w) := by
      intro c hc
      obtain ⟨i, j, _, _, hpos, _, w, hget, hw⟩ :=
        (mem_process_weighted_calls iv rv wv c).1 hc
      refine ⟨i, j, w, hpos, hget, hw, ?_⟩
      rw [hw, mul_pos_iff_of_pos_left hpos]
      exact Int.cast_pos
    refine ⟨process_weighted_calls_eq s iv rv wv, hall, ?_⟩
    intro hw c hc
    obtain ⟨i, j, w, _, hget, _, hiff⟩ := hall c hc
    exact hiff.2 (hw i j w hget)

theorem internal_step_weights_witness :
    ∀ c ∈ process_weighted_calls (coverage_of_rows [[1]]) (view_of_rows [[some 5]])
      (view_of_rows [[some 3]]), 0 < c.2 :=
  (internal_step_weights.2 tied_stats (coverage_of_rows [[1]]) (view_of_rows [[some 5]])
    (view_of_rows [[some 3]])).2.2 (by
      intro i j w hw
      have h := view_of_single_cell (some 3) i j w hw
      have h2 : (3 : Int) = w := Option.some.inj h
      omega)

/-- C14, as stated, fails. A dual-raster call over one fully covered cell with value `5` and
weight `0` calls the internal step once, with the weight `1 * 0 = 0`. -/
theorem internal_step_weight_counterexample :
    process_weighted_calls (coverage_of_rows [[1]]) (view_of_rows [[some 5]])
        (view_of_rows [[some 0]]) = [(5, 0)] ∧
    ¬ (∀ c ∈ process_weighted_calls (coverage_of_rows [[1]]) (view_of_rows [[some 5]])
        (view_of_rows [[some 0]]), 0 < c.2) := by
  have h : process_weighted_calls (coverage_of_rows [[1]]) (view_of_rows [[some 5]])
      (view_of_rows [[some 0]]) = [(5, 0)] := by
    simp [process_weighted_calls, process_weighted_cell_calls, view_of_rows,
      coverage_of_rows, List.range_succ]
  refine ⟨h, ?_⟩
  rw [h]
  simp

theorem exists_key_of_ne_nil (freq : List (Int × ℚ)) (hne : freq ≠ []) :
    ∃ k, k ∈ keys freq := by
  cases freq with
  | nil => exact absurd rfl hne
  | cons e rest => exact ⟨e.1, by simp [keys]⟩

theorem first_observation (L : NumericLimits) (v : Int) (w : ℚ) (hv : L.representable v) :
    ((RasterStats.new L).process v w).m_min = v ∧
      ((RasterStats.new L).process v w).m_max = v := by
  obtain ⟨h1, h2⟩ := hv
  simp only [RasterStats.process, RasterStats.new]
  constructor
  · by_cases h : v < L.max
    · simp [h]
    · simp only [h, if_false]; omega
  · by_cases h : v > L.lowest
    · simp [h]
    · simp only [h, if_false]; omega

/-- C15. In every state reached from a fresh accumulator by calls of the two entry points,
`minValue <= maxValue` whenever the frequency table is not empty; the first observation of
a representable value replaces both sentinels by that value. -/
theorem min_le_max_when_nonempty :
    (∀ (L : NumericLimits) (calls : List Call),
      (run (RasterStats.new L) calls).m_freq ≠ [] →
        (run (RasterStats.new L) calls).min ≤ (run (RasterStats.new L) calls).max) ∧
    (∀ (L : NumericLimits) (v : Int) (w : ℚ), L.representable v →
      ((RasterStats.new L).process v w).min = v ∧
        ((RasterStats.new L).process v w).max = v) := by
  refine ⟨?_, first_observation⟩
  intro L calls hne
  rw [run_eq] at hne ⊢
  obtain ⟨k, hk⟩ := exists_key_of_ne_nil _ hne
  have h := fresh_keys_between L _ k hk
  exact le_trans h.1 h.2

theorem min_le_max_when_nonempty_witness :
    ((run (RasterStats.new int32_limits)
        [Call.single scenario_coverage scenario_values]).min ≤
      (run (RasterStats.new int32_limits)
        [Call.single scenario_coverage scenario_values]).max) ∧
    (((RasterStats.new int32_limits).process 7 (1 / 2)).min = 7 ∧
      ((RasterStats.new int32_limits).process 7 (1 / 2)).max = 7) :=
  ⟨min_le_max_when_nonempty.1 int32_limits [Call.single scenario_coverage scenario_values]
      (by
        have h : run (RasterStats.new int32_limits)
            [Call.single scenario_coverage scenario_values] =
            contribute_all (RasterStats.new int32_limits)
              [(10, 1), (10, 1 / 2), (20, 1 / 4)] := by
          simp only [run, List.foldl_cons, List.foldl_nil, RasterStats.call]
          rw [process_raster_eq, scenario_contributions]
        rw [h, scenario_table]
        exact List.cons_ne_nil _ _),
    min_le_max_when_nonempty.2 int32_limits 7 (1 / 2) (by decide)⟩

/-- C16. The accessors `mode()` and `minority()` do not depend on the iteration order of the
frequency table: on two enumerations of the same non-empty table with distinct keys, the
scan of `std::max_element` returns the same value, an entry of the table, and so does the
scan of `std::min_element`. -/
theorem mode_minority_order_independent :
    (∀ f g : List (Int × ℚ), f.Perm g → f ≠ [] → distinct_keys f →
      (∃ v, (max_element freq_less f).map Prod.fst = some v ∧
        (max_element freq_less g).map Prod.fst = some v) ∧
      (∃ v, (min_element freq_less f).map Prod.fst = some v ∧
        (min_element freq_less g).map Prod.fst = some v)) ∧
    (∀ s t : RasterStats, s.m_freq.Perm t.m_freq →
      s.mode = t.mode ∧ s.minority = t.minority) := by
  constructor
  · intro f g hp hne _
    obtain ⟨m, hm, _, _⟩ := max_element_spec f hne
    obtain ⟨n, hn, _, _⟩ := min_element_spec f hne
    refine ⟨⟨m.1, ?_, ?_⟩, ⟨n.1, ?_, ?_⟩⟩
    · rw [hm]; rfl
    · rw [← max_element_perm hp, hm]; rfl
    · rw [hn]; rfl
    · rw [← min_element_perm hp, hn]; rfl
  · intro s t hp
    exact ⟨by simp only [RasterStats.mode, max_element_perm hp],
      by simp only [RasterStats.minority, min_element_perm hp]⟩

theorem mode_minority_order_independent_witness :
    ((∃ v, (max_element freq_less [(3, 2), (7, 2)]).map Prod.fst = some v ∧
        (max_element freq_less [(7, 2), (3, 2)]).map Prod.fst = some v) ∧
      (∃ v, (min_element freq_less [(3, 2), (7, 2)]).map Prod.fst = some v ∧
        (min_element freq_less [(7, 2), (3, 2)]).map Prod.fst = some v)) ∧
    (tied_stats.mode = { tied_stats with m_freq := [(7, 2), (3, 2)] }.mode ∧
      tied_stats.minority = { tied_stats with m_freq := [(7, 2), (3, 2)] }.minority) :=
  ⟨mode_minority_order_independent.1 [(3, 2), (7, 2)] [(7, 2), (3, 2)]
      (List.Perm.swap _ _ _) (List.cons_ne_nil _ _) (by decide),
    mode_minority_order_independent.2 tied_stats
      { tied_stats with m_freq := [(7, 2), (3, 2)] } (List.Perm.swap _ _ _)⟩

/-- C19. After any sequence of single-raster calls on a fresh accumulator, every weight
stored in the frequency table is positive, so `count() > 0` holds exactly when
`variety() > 0` does. -/
theorem single_raster_weights_positive (L : NumericLimits) (calls : List Call)
    (h : ∀ call ∈ calls, call.is_single = true) :
    (∀ e ∈ (run (RasterStats.new L) calls).m_freq, 0 < e.2) ∧
    (0 < (run (RasterStats.new L) calls).count ↔
      0 < (run (RasterStats.new L) calls).variety) := by
  have hpos : ∀ e ∈ (run (RasterStats.new L) calls).m_freq, 0 < e.2 := by
    rw [run_eq]
    exact contribute_all_positive _ _ (by simp [RasterStats.new])
      (single_calls_positive calls h)
  have hsum : (run (RasterStats.new L) calls).m_weights =
      weights_sum (run (RasterStats.new L) calls).m_freq := by
    rw [run_eq]
    exact contribute_all_weights_sum _ _ rfl
  refine ⟨hpos, ?_⟩
  simp only [RasterStats.count, RasterStats.variety, hsum]
  constructor
  · intro hc
    apply List.length_pos.2
    intro hnil
    rw [hnil] at hc
    simp [weights_sum] at hc
  · intro hv
    exact weights_sum_pos _ (List.length_pos.1 hv) hpos

theorem single_raster_weights_positive_witness :
    0 < (run (RasterStats.new int32_limits)
        [Call.single scenario_coverage scenario_values]).count ↔
      0 < (run (RasterStats.new int32_limits)
        [Call.single scenario_coverage scenario_values]).variety :=
  (single_raster_weights_positive int32_limits
    [Call.single scenario_coverage scenario_values] (by
      intro call hcall
      simp only [List.mem_singleton] at hcall
      rw [hcall]
      rfl)).2

/-! ## Merging accumulators -/

theorem foldl_min_min (l : List Int) (a b : Int) :
    l.foldl Min.min (Min.min a b) = Min.min a (l.foldl Min.min b) := by
  induction l generalizing b with
  | nil => rfl
  | cons x rest ih =>
    simp only [List.foldl_cons]
    rw [min_assoc, ih]

theorem foldl_max_max (l : List Int) (a b : Int) :
    l.foldl Max.max (Max.max a b) = Max.max a (l.foldl Max.max b) := by
  induction l generalizing b with
  | nil => rfl
  | cons x rest ih =>
    simp only [List.foldl_cons]
    rw [max_assoc, ih]

theorem weight_in_of_not_mem (freq : List (Int × ℚ)) (k : Int) (h : k ∉ keys freq) :
    weight_in freq k = 0 := by
  simp [weight_in, (find_eq_none_iff k freq).2 h]

theorem merge_freq_mem_keys (f g : List (Int × ℚ)) (k : Int) :
    k ∈ keys (merge_freq f g) ↔ k ∈ keys f ∨ k ∈ keys g := by
  induction g generalizing f with
  | nil => simp [merge_freq, keys]
  | cons e rest ih =>
    have h := ih (freq_add e.1 e.2 f)
    simp only [merge_freq, List.foldl_cons] at h ⊢
    rw [h, mem_keys_freq_add]
    simp only [keys, List.map_cons, List.mem_cons]
    tauto

theorem merge_freq_weight_in (f g : List (Int × ℚ)) (hg : distinct_keys g) (k : Int) :
    weight_in (merge_freq f g) k = weight_in f k + weight_in g k := by
  induction g generalizing f with
  | nil => simp [merge_freq, weight_in, find]
  | cons e rest ih =>
    have hd : e.1 ∉ keys rest ∧ distinct_keys rest := by
      simpa [distinct_keys, keys] using hg
    have h := ih (freq_add e.1 e.2 f) hd.2
    simp only [merge_freq, List.foldl_cons] at h ⊢
    rw [h, weight_in_freq_add]
    by_cases hk : k = e.1
    · have h0 : weight_in rest k = 0 := weight_in_of_not_mem rest k (by rw [hk]; exact hd.1)
      have h1 : weight_in (e :: rest) k = e.2 := by
        simp [weight_in, find, hk]
      rw [h0, h1, if_pos hk]; ring
    · have hk2 : ¬ e.1 = k := fun h3 => hk h3.symm
      have h1 : weight_in (e :: rest) k = weight_in rest k := by
        simp [weight_in, find, hk2]
      rw [h1, if_neg hk]; ring

theorem merge_freq_distinct_keys (f g : List (Int × ℚ)) (hf : distinct_keys f) :
    distinct_keys (merge_freq f g) := by
  induction g generalizing f with
  | nil => exact hf
  | cons e rest ih =>
    simp only [merge_freq, List.foldl_cons]
    exact ih _ (distinct_keys_freq_add _ _ _ hf)

theorem find_eq_of_weight_in (f g : List (Int × ℚ)) (k : Int)
    (hk : k ∈ keys f ↔ k ∈ keys g) (hw : weight_in f k = weight_in g k) :
    find k f = find k g := by
  by_cases h : k ∈ keys f
  · have h1 : find k f ≠ none := fun h2 => (find_eq_none_iff k f).1 h2 h
    have h2 : find k g ≠ none := fun h2 => (find_eq_none_iff k g).1 h2 (hk.1 h)
    obtain ⟨x, hx⟩ := Option.ne_none_iff_exists.1 h1
    obtain ⟨y, hy⟩ := Option.ne_none_iff_exists.1 h2
    rw [weight_in, weight_in, ← hx, ← hy] at hw
    simp only [Option.getD_some] at hw
    rw [← hx, ← hy, hw]
  · rw [(find_eq_none_iff k f).2 h, (find_eq_none_iff k g).2 (fun h2 => h (hk.2 h2))]

theorem perm_of_find_eq (f g : List (Int × ℚ)) (hf : distinct_keys f)
    (hg : distinct_keys g) (h : ∀ k, find k f = find k g) : f.Perm g := by
  rw [List.perm_ext_iff_of_nodup (distinct_keys_nodup _ hf) (distinct_keys_nodup _ hg)]
  intro e
  have he : e = (e.1, e.2) := rfl
  rw [he, ← find_eq_some_iff _ _ _ hf, ← find_eq_some_iff _ _ _ hg, h]

theorem fresh_min_le (L : NumericLimits) (cs : List Contribution) :
    (contribute_all (RasterStats.new L) cs).m_min ≤ L.max := by
  rw [contribute_all_min]
  exact (foldl_min_le _ _).1

theorem fresh_max_ge (L : NumericLimits) (cs : List Contribution) :
    L.lowest ≤ (contribute_all (RasterStats.new L) cs).m_max := by
  rw [contribute_all_max]
  exact (foldl_max_ge _ _).1

theorem merge_same (L : NumericLimits) (A B : List Contribution) :
    RasterStats.same (contribute_all (RasterStats.new L) (A ++ B))
      ((contribute_all (RasterStats.new L) A).merge (contribute_all (RasterStats.new L) B)) := by
  refine ⟨?_, ?_, ?_, ?_, ?_⟩
  · simp only [RasterStats.merge, contribute_all_weights, List.map_append, List.sum_append,
      RasterStats.new]
    ring
  · simp only [RasterStats.merge, contribute_all_weighted_vals, List.map_append,
      List.sum_append, RasterStats.new]
    ring
  · rw [contribute_all_append, contribute_all_min]
    simp only [RasterStats.merge]
    have hmin : (RasterStats.new L).m_min = L.max := rfl
    rw [contribute_all_min (RasterStats.new L) B, ← foldl_min_min, hmin,
      min_eq_left (fresh_min_le L A)]
  · rw [contribute_all_append, contribute_all_max]
    simp only [RasterStats.merge]
    have hmax : (RasterStats.new L).m_max = L.lowest := rfl
    rw [contribute_all_max (RasterStats.new L) B, ← foldl_max_max, hmax,
      max_eq_left (fresh_max_ge L A)]
  · intro k
    apply find_eq_of_weight_in
    · rw [contribute_all_append, contribute_all_mem_keys]
      simp only [RasterStats.merge]
      rw [merge_freq_mem_keys, fresh_mem_keys L B]
    · rw [contribute_all_append, contribute_all_weight_in]
      simp only [RasterStats.merge]
      rw [merge_freq_weight_in _ _ (fresh_distinct_keys L B),
        contribute_all_weight_in (RasterStats.new L) B]
      simp [RasterStats.new, weight_in, find]

theorem same_symm {a b : RasterStats} (h : RasterStats.same a b) : RasterStats.same b a :=
  ⟨h.1.symm, h.2.1.symm, h.2.2.1.symm, h.2.2.2.1.symm, fun k => (h.2.2.2.2 k).symm⟩

/-- C17. For two lists of contributions `A` and `B`, the state after `A` followed by `B` on a
fresh accumulator is the merge of the state after `A` alone and the state after `B` alone:
the same scalars and the same frequency table, entry for entry. The fresh accumulator is a
left and a right identity of the merge on the states reached from it. -/
theorem merge_homomorphism (L : NumericLimits) (A B : List Contribution) :
    RasterStats.same (contribute_all (RasterStats.new L) (A ++ B))
      ((contribute_all (RasterStats.new L) A).merge (contribute_all (RasterStats.new L) B)) ∧
    (contribute_all (RasterStats.new L) (A ++ B)).m_freq.Perm
      ((contribute_all (RasterStats.new L) A).merge
        (contribute_all (RasterStats.new L) B)).m_freq ∧
    RasterStats.same ((RasterStats.new L).merge (contribute_all (RasterStats.new L) A))
      (contribute_all (RasterStats.new L) A) ∧
    RasterStats.same ((contribute_all (RasterStats.new L) A).merge (RasterStats.new L))
      (contribute_all (RasterStats.new L) A) := by
  have hsame := merge_same L A B
  refine ⟨hsame, ?_, ?_, ?_⟩
  · apply perm_of_find_eq _ _ (fresh_distinct_keys L (A ++ B)) _ hsame.2.2.2.2
    exact merge_freq_distinct_keys _ _ (fresh_distinct_keys L A)
  · exact same_symm (merge_same L [] A)
  · have h := merge_same L A []
    rw [List.append_nil] at h
    exact same_symm h

/-! ## The accessors and the table -/

theorem fresh_accessors (L : NumericLimits) (cs : List Contribution)
    (hr : ∀ c ∈ cs, L.representable c.1)
    (hne : (contribute_all (RasterStats.new L) cs).m_freq ≠ []) :
    ((contribute_all (RasterStats.new L) cs).min ∈
        keys (contribute_all (RasterStats.new L) cs).m_freq ∧
      (contribute_all (RasterStats.new L) cs).max ∈
        keys (contribute_all (RasterStats.new L) cs).m_freq) ∧
    (∀ k ∈ keys (contribute_all (RasterStats.new L) cs).m_freq,
      (contribute_all (RasterStats.new L) cs).min ≤ k ∧
        k ≤ (contribute_all (RasterStats.new L) cs).max) ∧
    (∃ v, (contribute_all (RasterStats.new L) cs).mode = some v ∧ v ∈ values cs ∧
      (contribute_all (RasterStats.new L) cs).min ≤ v ∧
        v ≤ (contribute_all (RasterStats.new L) cs).max) ∧
    (∃ v, (contribute_all (RasterStats.new L) cs).minority = some v ∧ v ∈ values cs ∧
      (contribute_all (RasterStats.new L) cs).min ≤ v ∧
        v ≤ (contribute_all (RasterStats.new L) cs).max) ∧
    ((contribute_all (RasterStats.new L) cs).variety = 1 →
      (contribute_all (RasterStats.new L) cs).mode =
          some (contribute_all (RasterStats.new L) cs).min ∧
        (contribute_all (RasterStats.new L) cs).minority =
          some (contribute_all (RasterStats.new L) cs).min ∧
        (contribute_all (RasterStats.new L) cs).max =
          (contribute_all (RasterStats.new L) cs).min) := by
  have hcs : cs ≠ [] := (fresh_freq_ne_nil_iff L cs).1 hne
  obtain ⟨⟨hmin1, _⟩, ⟨hmax1, _⟩⟩ := contribute_all_extrema L cs hcs hr
  have hbetween := fresh_keys_between L cs
  have hminkey := (fresh_mem_keys L cs _).2 hmin1
  have hmaxkey := (fresh_mem_keys L cs _).2 hmax1
  obtain ⟨v, w, hmode, hvmem, _⟩ := mode_lex_max _ hne
  obtain ⟨u, x, hminor, humem, _⟩ := minority_lex_min _ hne
  have hvkey : v ∈ keys (contribute_all (RasterStats.new L) cs).m_freq :=
    List.mem_map.2 ⟨(v, w), hvmem, rfl⟩
  have hukey : u ∈ keys (contribute_all (RasterStats.new L) cs).m_freq :=
    List.mem_map.2 ⟨(u, x), humem, rfl⟩
  refine ⟨⟨hminkey, hmaxkey⟩, hbetween, ⟨v, hmode, (fresh_mem_keys L cs v).1 hvkey,
    hbetween v hvkey⟩, ⟨u, hminor, (fresh_mem_keys L cs u).1 hukey, hbetween u hukey⟩, ?_⟩
  intro hvar
  obtain ⟨e, he⟩ := List.length_eq_one.1 hvar
  have hk : ∀ k ∈ keys (contribute_all (RasterStats.new L) cs).m_freq, k = e.1 := by
    intro k hk
    rw [he] at hk
    simpa [keys] using hk
  rw [hmode, hminor, hk _ hvkey, hk _ hukey, hk _ hminkey, hk _ hmaxkey]
  exact ⟨rfl, rfl, rfl⟩

/-- C18. In every state reached from a fresh accumulator by calls of the two entry points on
rasters of representable values, when the frequency table is not empty: `min()` and `max()`
are keys of the table and every key lies between them; `mode()` and `minority()` return
values that were contributed and that lie between `min()` and `max()`; and when
`variety() == 1` the four accessors return the same value. -/
theorem accessors_within_table (L : NumericLimits) (calls : List Call)
    (hr : ∀ call ∈ calls, call.values_representable L)
    (hne : (run (RasterStats.new L) calls).m_freq ≠ []) :
    ((run (RasterStats.new L) calls).min ∈ keys (run (RasterStats.new L) calls).m_freq ∧
      (run (RasterStats.new L) calls).max ∈ keys (run (RasterStats.new L) calls).m_freq) ∧
    (∀ k ∈ keys (run (RasterStats.new L) calls).m_freq,
      (run (RasterStats.new L) calls).min ≤ k ∧ k ≤ (run (RasterStats.new L) calls).max) ∧
    (∃ v, (run (RasterStats.new L) calls).mode = some v ∧
      v ∈ values (calls.flatMap Call.calls) ∧
      (run (RasterStats.new L) calls).min ≤ v ∧ v ≤ (run (RasterStats.new L) calls).max) ∧
    (∃ v, (run (RasterStats.new L) calls).minority = some v ∧
      v ∈ values (calls.flatMap Call.calls) ∧
      (run (RasterStats.new L) calls).min ≤ v ∧ v ≤ (run (RasterStats.new L) calls).max) ∧
    ((run (RasterStats.new L) calls).variety = 1 →
      (run (RasterStats.new L) calls).mode = some (run (RasterStats.new L) calls).min ∧
        (run (RasterStats.new L) calls).minority =
          some (run (RasterStats.new L) calls).min ∧
        (run (RasterStats.new L) calls).max = (run (RasterStats.new L) calls).min) := by
  rw [run_eq] at hne ⊢
  exact fresh_accessors L _ (calls_representable L calls hr) hne

theorem accessors_within_table_witness :
    (run (RasterStats.new int32_limits)
        [Call.single (coverage_of_rows [[1]]) (view_of_rows [[some 5]])]).mode =
      some (run (RasterStats.new int32_limits)
        [Call.single (coverage_of_rows [[1]]) (view_of_rows [[some 5]])]).min ∧
    (run (RasterStats.new int32_limits)
        [Call.single (coverage_of_rows [[1]]) (view_of_rows [[some 5]])]).minority =
      some (run (RasterStats.new int32_limits)
        [Call.single (coverage_of_rows [[1]]) (view_of_rows [[some 5]])]).min ∧
    (run (RasterStats.new int32_limits)
        [Call.single (coverage_of_rows [[1]]) (view_of_rows [[some 5]])]).max =
      (run (RasterStats.new int32_limits)
        [Call.single (coverage_of_rows [[1]]) (view_of_rows [[some 5]])]).min :=
  have hrun : run (RasterStats.new int32_limits)
      [Call.single (coverage_of_rows [[1]]) (view_of_rows [[some 5]])] =
      (RasterStats.new int32_limits).process 5 1 := by
    simp [run, RasterStats.call, RasterStats.process_raster, RasterStats.process_cell,
      view_of_rows, coverage_of_rows, List.range_succ]
  (accessors_within_table int32_limits
    [Call.single (coverage_of_rows [[1]]) (view_of_rows [[some 5]])]
    (by
      intro call hcall
      simp only [List.mem_singleton] at hcall
      rw [hcall]
      intro i j v hv
      have h := view_of_single_cell (some 5) i j v hv
      have h2 : (5 : Int) = v := Option.some.inj h
      rw [← h2]
      decide)
    (by rw [hrun]; exact process_freq_ne_nil _ _ _)).2.2.2.2
    (by rw [hrun]; simp [RasterStats.variety, RasterStats.process, RasterStats.new, freq_add])

end exactextract
